import Mathlib

/-!
# Notarium layout engine

A shallow embedding of `src/native/notation_engine.cpp` and
`src/native/notation_engine.hpp`.

Modelling conventions.

* The program is embedded twice. In the exact reading C++ `float` values are
  rationals `ℚ` (no rounding, no NaN, no infinities); it carries the properties
  that speak of exact arithmetic or that relate runs of `relayout` to each
  other. In the binary32 reading (`F32`, namespace `Binary32`) every operation
  rounds as IEEE 754 binary32 does; it carries what depends on rounding,
  overflow, infinities or NaN.
* `int32_t` values are embedded as `Int`; the one integer operation of the
  program, `n.midi - 64`, is performed in 32-bit two's complement
  (`wrapInt32`) before the conversion to `float`.
* `std::vector<CppNote>` is a `List CppNote`; `std::size_t` indices are `Nat`.
* A `CppEngine*` is an `Option CppEngine`, `none` being the null pointer.
  The functions returning `void` return the engine the pointer refers to
  after the call.
-/

namespace Notarium

/-- The struct `CppNote` of `notation_engine.hpp`, exact reading. -/
structure CppNote where
  midi : Int
  duration_beats : ℚ
  x : ℚ
  y : ℚ
deriving DecidableEq, Repr

/-- The struct `CppEngine`, with its default member initialisers, exact
reading. -/
@[ext]
structure CppEngine where
  notes : List CppNote := []
  staff_width : ℚ := 760
  staff_height : ℚ := 40
deriving DecidableEq, Repr

/-- Two's complement reduction of a mathematical integer to `int32_t`. -/
def wrapInt32 (z : Int) : Int := (z + 2 ^ 31) % 2 ^ 32 - 2 ^ 31

/-- The values an `int32_t` can hold. -/
def isInt32 (z : Int) : Prop := -(2 ^ 31) ≤ z ∧ z < 2 ^ 31

instance (z : Int) : Decidable (isInt32 z) := by
  unfold isInt32; infer_instance

/-- The expression `n.duration_beats > 0.0f ? n.duration_beats : 0.25f`,
which occurs in both loops of `relayout`. -/
def beatsOf (n : CppNote) : ℚ :=
  if n.duration_beats > 0 then n.duration_beats else 1 / 4

/-- First loop of `relayout`: `total_beats += ...` over all notes, from the
given start value; exact reading, the sum is not rounded. -/
def sumLoop : ℚ → List CppNote → ℚ
  | total_beats, [] => total_beats
  | total_beats, n :: ns => sumLoop (total_beats + beatsOf n) ns

/-- Second loop of `relayout`: assigns `x` and `y` to each note in order,
carrying `running`; exact reading, no operation is rounded. -/
def layoutLoop (staff_width staff_height total_beats : ℚ) :
    ℚ → List CppNote → List CppNote
  | _, [] => []
  | running, n :: ns =>
    let beats := beatsOf n
    let x := 12 + (running / total_beats) * (staff_width - 24)
    let y := (staff_height * (1 / 2)) -
      (((wrapInt32 (n.midi - 64) : Int) : ℚ) * (staff_height / 16))
    { n with x := x, y := y } ::
      layoutLoop staff_width staff_height total_beats (running + beats) ns

/-- The value of `total_beats` used by the second loop: the sum of the first
loop, replaced by `1.0f` when it is not positive. -/
def totalBeats (notes : List CppNote) : ℚ :=
  let total_beats := sumLoop 0 notes
  if total_beats ≤ 0 then 1 else total_beats

/-- The method `CppEngine::relayout`. -/
def relayout (e : CppEngine) : CppEngine :=
  if e.notes.isEmpty then e
  else
    { e with notes :=
        layoutLoop e.staff_width e.staff_height (totalBeats e.notes) 0 e.notes }

/-- The function `cpp_engine_new`. -/
def cpp_engine_new : Option CppEngine := some {}

/-- The function `cpp_engine_clear`. -/
def cpp_engine_clear (engine : Option CppEngine) : Option CppEngine :=
  match engine with
  | none => none
  | some e => some { e with notes := [] }

/-- The function `cpp_engine_add_note`. -/
def cpp_engine_add_note (engine : Option CppEngine) (midi : Int)
    (duration_beats : ℚ) : Option CppEngine :=
  match engine with
  | none => none
  | some e =>
    let note : CppNote :=
      { midi := midi, duration_beats := duration_beats, x := 0, y := 0 }
    some (relayout { e with notes := e.notes ++ [note] })

/-- The function `cpp_engine_note_count`. -/
def cpp_engine_note_count (engine : Option CppEngine) : Nat :=
  match engine with
  | none => 0
  | some e => e.notes.length

/-- The note `CppNote{0, 0.0f, 0.0f, 0.0f}` returned by `cpp_engine_get_note`
for a null engine or an index out of bounds. -/
def sentinelNote : CppNote := { midi := 0, duration_beats := 0, x := 0, y := 0 }

/-- The function `cpp_engine_get_note`. -/
def cpp_engine_get_note (engine : Option CppEngine) (index : Nat) : CppNote :=
  match engine with
  | none => sentinelNote
  | some e =>
    match e.notes[index]? with
    | none => sentinelNote
    | some n => n

/-- The function `cpp_engine_set_staff_geometry`. -/
def cpp_engine_set_staff_geometry (engine : Option CppEngine)
    (width height : ℚ) : Option CppEngine :=
  match engine with
  | none => none
  | some e => some (relayout { e with staff_width := width, staff_height := height })

/-! ## Closed forms following the specification -/

/-- Effective duration of the specification: the stored duration when it is
strictly positive, otherwise the fallback `0.25`. -/
def effectiveDuration (d : ℚ) : ℚ := if 0 < d then d else 1 / 4

/-- The sum `S_i` of the effective durations of the notes before index `i`. -/
def specRunning (notes : List CppNote) (i : Nat) : ℚ :=
  ((notes.take i).map (fun n => effectiveDuration n.duration_beats)).sum

/-- The sum `T` of the effective durations of all notes. -/
def specTotal (notes : List CppNote) : ℚ :=
  (notes.map (fun n => effectiveDuration n.duration_beats)).sum

/-- Horizontal formula of the specification,
`x = marginX + (running / totalBeats) * (staffWidth - 2*marginX)` with
`marginX = 12`. -/
def specX (notes : List CppNote) (staffWidth : ℚ) (i : Nat) : ℚ :=
  12 + (specRunning notes i / specTotal notes) * (staffWidth - 24)

/-- The pitches for which `pitch - 64` is computed without leaving the
`int32_t` range. -/
def offsetFits (pitch : Int) : Prop := -(2 ^ 31) + 64 ≤ pitch ∧ pitch < 2 ^ 31

instance (z : Int) : Decidable (offsetFits z) := by
  unfold offsetFits; infer_instance

/-- Vertical position as the second loop computes it, in closed form. -/
def codeY (staff_height : ℚ) (midi : Int) : ℚ :=
  (staff_height * (1 / 2)) -
    (((wrapInt32 (midi - 64) : Int) : ℚ) * (staff_height / 16))

/-- The note sequence in which every non-positive duration is replaced by
`0.25`. -/
def clampDurations (notes : List CppNote) : List CppNote :=
  notes.map (fun n =>
    if n.duration_beats ≤ 0 then { n with duration_beats := 1 / 4 } else n)

/-- The note sequence with every computed position reset to zero: what is left
is the sequence of (pitch, durationBeats) pairs supplied by the host. -/
def erasePositions (notes : List CppNote) : List CppNote :=
  notes.map (fun n => { n with x := 0, y := 0 })

/-- The mutating operations of the engine. -/
inductive Op where
  | addNote (midi : Int) (duration_beats : ℚ)
  | clear
  | setStaffGeometry (width height : ℚ)
deriving DecidableEq, Repr

/-- One mutating call on an engine pointer. -/
def applyOp (engine : Option CppEngine) : Op → Option CppEngine
  | .addNote midi duration_beats => cpp_engine_add_note engine midi duration_beats
  | .clear => cpp_engine_clear engine
  | .setStaffGeometry width height => cpp_engine_set_staff_geometry engine width height

/-- The engine reached from `cpp_engine_new` by a sequence of mutating calls. -/
def runOps (ops : List Op) : Option CppEngine :=
  ops.foldl applyOp cpp_engine_new

/-- The note `cpp_engine_add_note` builds from its arguments before pushing
it: the given pitch and duration, `x = y = 0`. -/
def mkNote (p : Int × ℚ) : CppNote :=
  { midi := p.1, duration_beats := p.2, x := 0, y := 0 }

/-- Successive `cpp_engine_add_note` calls, one per (pitch, duration) pair, in
list order. -/
def addNotes (engine : Option CppEngine) (ps : List (Int × ℚ)) : Option CppEngine :=
  ps.foldl (fun en p => cpp_engine_add_note en p.1 p.2) engine

/-- The note sequence in which every duration is multiplied by `k`. -/
def scaleDurations (k : ℚ) (notes : List CppNote) : List CppNote :=
  notes.map (fun n => { n with duration_beats := k * n.duration_beats })

/-! ## The binary32 reading

The same program with `float` embedded as IEEE 754 binary32: every operation
rounds to nearest, ties to even, overflows to an infinity, and propagates NaN.
A finite value is a sign and a magnitude counted in units of `2^-149`, the
spacing of the subnormal numbers, so that every finite binary32 value is a
whole number of units. Each C++ operation is taken to round once, to binary32
(no excess precision, no fused multiply-add). -/

/-- IEEE 754 binary32 values: NaN, the two infinities, and the finite values
`(-1)^neg * mag * 2^-149`. -/
inductive F32 where
  | nan
  | inf (neg : Bool)
  | fin (neg : Bool) (mag : Nat)
deriving DecidableEq, Repr

namespace F32

/-- The magnitude of `1.0f`, in units of `2^-149`. -/
def unitsPerOne : Nat := 2 ^ 149

/-- The magnitude `2^128`, in units: a rounded magnitude that reaches it
overflows. -/
def overflowMag : Nat := 2 ^ 128 * 2 ^ 149

/-- The magnitude of `FLT_MAX = (2^24 - 1) * 2^104`, in units. -/
def maxMag : Nat := (2 ^ 24 - 1) * 2 ^ 253

/-- The integer nearest to `n / d`, ties to the even one. -/
def rneDiv (n d : Nat) : Nat :=
  let q := n / d
  let r := n % d
  if 2 * r < d then q else if d < 2 * r then q + 1 else if q % 2 = 0 then q else q + 1

/-- The number of low bits a magnitude `q` has to drop to fit the 24-bit
significand: the least `s` with `q / 2^s < 2^24` (for `q < 2^(24 + fuel)`). -/
def shiftOf : Nat → Nat → Nat
  | 0, _ => 0
  | fuel + 1, q => if q < 2 ^ 24 then 0 else shiftOf fuel (q / 2) + 1

/-- The binary32 magnitude nearest to `n / d` units, ties to even, before the
overflow test; used for `n / d < 2^277` only. -/
def roundMag (n d : Nat) : Nat :=
  let shift := shiftOf 256 (n / d)
  rneDiv n (d * 2 ^ shift) * 2 ^ shift

/-- The binary32 value nearest to `(-1)^neg * n / d` units. -/
def round (neg : Bool) (n d : Nat) : F32 :=
  if overflowMag ≤ n / d then inf neg
  else
    let m := roundMag n d
    if overflowMag ≤ m then inf neg else fin neg m

/-- The signed number of units of a finite value. -/
def signed (neg : Bool) (m : Nat) : Int := if neg then -(m : Int) else m

/-- The conversion `static_cast<float>` of an integer. -/
def ofInt (z : Int) : F32 := round (decide (z < 0)) (z.natAbs * unitsPerOne) 1

/-- The constant `0.0f`. -/
def zero : F32 := fin false 0

/-- The constant `0.25f`. -/
def quarter : F32 := fin false (2 ^ 147)

/-- The constant `0.5f`. -/
def half : F32 := fin false (2 ^ 148)

/-- Unary minus. -/
def neg : F32 → F32
  | nan => nan
  | inf a => inf (!a)
  | fin a m => fin (!a) m

/-- The operation `a + b`. -/
def add : F32 → F32 → F32
  | nan, _ => nan
  | _, nan => nan
  | inf a, inf b => if a = b then inf a else nan
  | inf a, fin _ _ => inf a
  | fin _ _, inf b => inf b
  | fin a m, fin b n =>
    let z : Int := signed a m + signed b n
    if z = 0 then fin (a && b) 0 else round (decide (z < 0)) z.natAbs 1

/-- The operation `a - b`. -/
def sub (a b : F32) : F32 := add a (neg b)

/-- The operation `a * b`. -/
def mul : F32 → F32 → F32
  | nan, _ => nan
  | _, nan => nan
  | inf a, inf b => inf (xor a b)
  | inf a, fin b n => if n = 0 then nan else inf (xor a b)
  | fin a m, inf b => if m = 0 then nan else inf (xor a b)
  | fin a m, fin b n => round (xor a b) (m * n) unitsPerOne

/-- The operation `a / b`. -/
def div : F32 → F32 → F32
  | nan, _ => nan
  | _, nan => nan
  | inf _, inf _ => nan
  | inf a, fin b _ => inf (xor a b)
  | fin a _, inf b => fin (xor a b) 0
  | fin a m, fin b n =>
    if n = 0 then (if m = 0 then nan else inf (xor a b))
    else round (xor a b) (m * unitsPerOne) n

/-- The comparison `a < b`; false when either side is NaN. -/
def lt : F32 → F32 → Bool
  | nan, _ => false
  | _, nan => false
  | inf a, inf b => a && !b
  | inf a, fin _ _ => a
  | fin _ _, inf b => !b
  | fin a m, fin b n => decide (signed a m < signed b n)

/-- The comparison `a <= b`; false when either side is NaN. -/
def le : F32 → F32 → Bool
  | nan, _ => false
  | _, nan => false
  | inf a, inf b => a || !b
  | inf a, fin _ _ => a
  | fin _ _, inf b => !b
  | fin a m, fin b n => decide (signed a m ≤ signed b n)

/-- Whether two values are the same number: both NaN, the same infinity, or
finite with the same signed magnitude (the two zeros count as the same). -/
def same : F32 → F32 → Bool
  | nan, nan => true
  | inf a, inf b => decide (a = b)
  | fin a m, fin b n => decide (signed a m = signed b n)
  | _, _ => false

/-- The values a `float` variable can hold: NaN, the infinities, and the
finite values that are their own rounding. -/
def isValid : F32 → Bool
  | nan => true
  | inf _ => true
  | fin _ m => decide (m ≤ maxMag) && decide (roundMag m 1 = m)

end F32

namespace Binary32

/-- The struct `CppNote` of `notation_engine.hpp`, binary32 reading. -/
structure CppNote where
  midi : Int
  duration_beats : F32
  x : F32
  y : F32
deriving DecidableEq, Repr

/-- The struct `CppEngine`, with its default member initialisers, binary32
reading. -/
structure CppEngine where
  notes : List CppNote := []
  staff_width : F32 := F32.ofInt 760
  staff_height : F32 := F32.ofInt 40
deriving DecidableEq, Repr

/-- The expression `n.duration_beats > 0.0f ? n.duration_beats : 0.25f`. -/
def beatsOf (n : CppNote) : F32 :=
  if F32.lt F32.zero n.duration_beats then n.duration_beats else F32.quarter

/-- First loop of `relayout`: `total_beats += ...` over all notes. -/
def sumLoop : F32 → List CppNote → F32
  | total_beats, [] => total_beats
  | total_beats, n :: ns => sumLoop (F32.add total_beats (beatsOf n)) ns

/-- Second loop of `relayout`. -/
def layoutLoop (staff_width staff_height total_beats : F32) :
    F32 → List CppNote → List CppNote
  | _, [] => []
  | running, n :: ns =>
    let beats := beatsOf n
    let x := F32.add (F32.ofInt 12)
      (F32.mul (F32.div running total_beats) (F32.sub staff_width (F32.ofInt 24)))
    let y := F32.sub (F32.mul staff_height F32.half)
      (F32.mul (F32.ofInt (wrapInt32 (n.midi - 64)))
        (F32.div staff_height (F32.ofInt 16)))
    { n with x := x, y := y } ::
      layoutLoop staff_width staff_height total_beats (F32.add running beats) ns

/-- The value of `total_beats` used by the second loop: the sum of the first
loop, replaced by `1.0f` when `total_beats <= 0.0f`. -/
def totalBeats (notes : List CppNote) : F32 :=
  let total_beats := sumLoop F32.zero notes
  if F32.le total_beats F32.zero then F32.ofInt 1 else total_beats

/-- The method `CppEngine::relayout`. -/
def relayout (e : CppEngine) : CppEngine :=
  if e.notes.isEmpty then e
  else
    { e with notes :=
        layoutLoop e.staff_width e.staff_height (totalBeats e.notes) F32.zero e.notes }

/-- The function `cpp_engine_new`. -/
def cpp_engine_new : Option CppEngine := some {}

/-- The function `cpp_engine_clear`. -/
def cpp_engine_clear (engine : Option CppEngine) : Option CppEngine :=
  match engine with
  | none => none
  | some e => some { e with notes := [] }

/-- The function `cpp_engine_add_note`. -/
def cpp_engine_add_note (engine : Option CppEngine) (midi : Int)
    (duration_beats : F32) : Option CppEngine :=
  match engine with
  | none => none
  | some e =>
    let note : CppNote :=
      { midi := midi, duration_beats := duration_beats, x := F32.zero, y := F32.zero }
    some (relayout { e with notes := e.notes ++ [note] })

/-- The function `cpp_engine_note_count`. -/
def cpp_engine_note_count (engine : Option CppEngine) : Nat :=
  match engine with
  | none => 0
  | some e => e.notes.length

/-- The note `CppNote{0, 0.0f, 0.0f, 0.0f}`. -/
def sentinelNote : CppNote :=
  { midi := 0, duration_beats := F32.zero, x := F32.zero, y := F32.zero }

/-- The function `cpp_engine_get_note`. -/
def cpp_engine_get_note (engine : Option CppEngine) (index : Nat) : CppNote :=
  match engine with
  | none => sentinelNote
  | some e =>
    match e.notes[index]? with
    | none => sentinelNote
    | some n => n

/-- The function `cpp_engine_set_staff_geometry`. -/
def cpp_engine_set_staff_geometry (engine : Option CppEngine)
    (width height : F32) : Option CppEngine :=
  match engine with
  | none => none
  | some e => some (relayout { e with staff_width := width, staff_height := height })

/-- Horizontal layout formula
`x = marginX + (running / totalBeats) * (staffWidth - 2*marginX)` in binary32,
`running` being the sum of the effective durations before index `i`,
accumulated in sequence order. -/
def layoutX (notes : List CppNote) (staffWidth : F32) (i : Nat) : F32 :=
  F32.add (F32.ofInt 12)
    (F32.mul (F32.div (sumLoop F32.zero (notes.take i)) (totalBeats notes))
      (F32.sub staffWidth (F32.ofInt 24)))

/-- Vertical layout formula in binary32, over the `int32_t` difference
`pitch - 64`. -/
def layoutY (staffHeight : F32) (pitch : Int) : F32 :=
  F32.sub (F32.mul staffHeight F32.half)
    (F32.mul (F32.ofInt (wrapInt32 (pitch - 64))) (F32.div staffHeight (F32.ofInt 16)))

/-- Vertical formula of the specification,
`y = staffHeight/2 - (pitch - 64) * (staffHeight / 16)`, in binary32, over the
mathematical integer `pitch - 64`. -/
def formulaY (staffHeight : F32) (pitch : Int) : F32 :=
  F32.sub (F32.mul staffHeight F32.half)
    (F32.mul (F32.ofInt (pitch - 64)) (F32.div staffHeight (F32.ofInt 16)))

end Binary32

/-! ## Engine states used as concrete scenarios -/

/-- The engine inside the second `cpp_engine_add_note` of the scenario
create, add (64, 1.0), add (67, 1.0), just before `relayout` runs: the first
note carries its earlier layout, the new note has `x = y = 0`. -/
def twoNotePending : CppEngine :=
  { notes := [{ midi := 64, duration_beats := 1, x := 12, y := 20 },
              { midi := 67, duration_beats := 1, x := 0, y := 0 }] }

/-- The two-note engine of the scenario: create, add (64, 1.0), add (67, 1.0). -/
def twoNoteEngine : Option CppEngine :=
  cpp_engine_add_note (cpp_engine_add_note cpp_engine_new 64 1) 67 1

/-- The two-note engine of the scenario, as a state: both notes laid out on
the default staff. -/
def twoNoteLaidOut : CppEngine :=
  { notes := [{ midi := 64, duration_beats := 1, x := 12, y := 20 },
              { midi := 67, duration_beats := 1, x := 380, y := 25 / 2 }] }

/-- An engine with a degenerate staff (width 0, height 0) whose second note has
pitch 0 and duration 0. -/
def allZeroEngine : Option CppEngine :=
  cpp_engine_add_note
    (cpp_engine_set_staff_geometry (cpp_engine_add_note cpp_engine_new 5 (1 / 4)) 0 0)
    0 0

/-- Two notes before layout, the second of duration 0. -/
def zeroDurationPending : CppEngine :=
  { notes := [{ midi := 60, duration_beats := 1, x := 0, y := 0 },
              { midi := 60, duration_beats := 0, x := 0, y := 0 }] }

/-- Two notes before layout, of durations 1 and 3. -/
def positivePairPending : CppEngine :=
  { notes := [{ midi := 60, duration_beats := 1, x := 0, y := 0 },
              { midi := 72, duration_beats := 3, x := 0, y := 0 }] }

namespace Binary32

/-- One note whose pitch is the least `int32_t` value, on the default staff. -/
def minPitchEngine : Option CppEngine :=
  cpp_engine_add_note cpp_engine_new (-2147483648) (F32.ofInt 1)

/-- Durations `1e8` and `1` on a staff of width `134217776`. -/
def roundedWidthEngine : Option CppEngine :=
  cpp_engine_set_staff_geometry
    (cpp_engine_add_note
      (cpp_engine_add_note cpp_engine_new 60 (F32.ofInt 100000000)) 60 (F32.ofInt 1))
    (F32.ofInt 134217776) (F32.ofInt 40)

/-- Durations `2^127`, `2^127` and `1` on the default staff: the sum of the
first two overflows. -/
def overflowingEngine : Option CppEngine :=
  cpp_engine_add_note
    (cpp_engine_add_note
      (cpp_engine_add_note cpp_engine_new 60 (F32.ofInt (2 ^ 127)))
      60 (F32.ofInt (2 ^ 127)))
    60 (F32.ofInt 1)

/-- Durations `1`, `2^100` and `1` on the default staff: the sum absorbs the
small terms. -/
def absorbingEngine : Option CppEngine :=
  cpp_engine_add_note
    (cpp_engine_add_note
      (cpp_engine_add_note cpp_engine_new 60 (F32.ofInt 1))
      60 (F32.ofInt (2 ^ 100)))
    60 (F32.ofInt 1)

/-- One note on a staff whose width is NaN. -/
def nanWidthEngine : Option CppEngine :=
  cpp_engine_set_staff_geometry
    (cpp_engine_add_note cpp_engine_new 64 (F32.ofInt 1)) F32.nan (F32.ofInt 40)

/-- One note on a staff whose width is `+inf`. -/
def infWidthEngine : Option CppEngine :=
  cpp_engine_set_staff_geometry
    (cpp_engine_add_note cpp_engine_new 64 (F32.ofInt 1)) (F32.inf false) (F32.ofInt 40)

/-- The two-note engine of the scenario: create, add (64, 1.0), add (67, 1.0). -/
def twoNoteEngine : Option CppEngine :=
  cpp_engine_add_note (cpp_engine_add_note cpp_engine_new 64 (F32.ofInt 1))
    67 (F32.ofInt 1)

/-- The two-note engine of the scenario, as a state. -/
def twoNoteLaidOut : CppEngine :=
  { notes := [{ midi := 64, duration_beats := F32.ofInt 1, x := F32.ofInt 12,
                y := F32.ofInt 20 },
              { midi := 67, duration_beats := F32.ofInt 1, x := F32.ofInt 380,
                y := F32.div (F32.ofInt 25) (F32.ofInt 2) }] }

/-- One note whose pitch is the least `int32_t` value, on a staff of height 0. -/
def flatMinPitchEngine : Option CppEngine :=
  cpp_engine_add_note
    (cpp_engine_set_staff_geometry cpp_engine_new (F32.ofInt 760) (F32.ofInt 0))
    (-2147483648) (F32.ofInt 1)

end Binary32

/-! ## Auxiliary lemmas -/

theorem beatsOf_eq (n : CppNote) : beatsOf n = effectiveDuration n.duration_beats := by
  simp [beatsOf, effectiveDuration]

theorem effectiveDuration_pos (d : ℚ) : 0 < effectiveDuration d := by
  unfold effectiveDuration
  split
  · assumption
  · norm_num

theorem sumLoop_eq (notes : List CppNote) (a : ℚ) :
    sumLoop a notes = a + specTotal notes := by
  induction notes generalizing a with
  | nil => simp [sumLoop, specTotal]
  | cons n ns ih =>
    simp only [sumLoop, ih, beatsOf_eq, specTotal, List.map_cons, List.sum_cons]
    ring

theorem specTotal_nonneg (notes : List CppNote) : 0 ≤ specTotal notes := by
  induction notes with
  | nil => simp [specTotal]
  | cons n ns ih =>
    have h := effectiveDuration_pos n.duration_beats
    simp only [specTotal, List.map_cons, List.sum_cons] at ih ⊢
    linarith

theorem specTotal_pos (notes : List CppNote) (hne : notes ≠ []) :
    0 < specTotal notes := by
  cases notes with
  | nil => exact absurd rfl hne
  | cons n ns =>
    have h := effectiveDuration_pos n.duration_beats
    have h2 := specTotal_nonneg ns
    simp only [specTotal, List.map_cons, List.sum_cons] at h2 ⊢
    linarith

theorem totalBeats_eq (notes : List CppNote) (hne : notes ≠ []) :
    totalBeats notes = specTotal notes := by
  have h := specTotal_pos notes hne
  simp only [totalBeats, sumLoop_eq, zero_add]
  rw [if_neg (not_le.mpr h)]

theorem wrapInt32_of_fits (z : Int) (h : isInt32 z) : wrapInt32 z = z := by
  obtain ⟨h1, h2⟩ := h
  unfold wrapInt32
  rw [Int.emod_eq_of_lt (by linarith) (by linarith)]
  ring

theorem layoutLoop_length (w h t : ℚ) (notes : List CppNote) (r : ℚ) :
    (layoutLoop w h t r notes).length = notes.length := by
  induction notes generalizing r with
  | nil => simp [layoutLoop]
  | cons n ns ih => simp [layoutLoop, ih]

theorem layoutLoop_getElem? (w h t : ℚ) (notes : List CppNote) (r : ℚ) (i : Nat) :
    (layoutLoop w h t r notes)[i]? =
      (notes[i]?).map (fun n =>
        { n with x := 12 + ((r + specRunning notes i) / t) * (w - 24),
                 y := codeY h n.midi }) := by
  induction notes generalizing r i with
  | nil => simp [layoutLoop]
  | cons n ns ih =>
    cases i with
    | zero => simp [layoutLoop, specRunning, codeY]
    | succ k =>
      simp only [layoutLoop, List.getElem?_cons_succ, ih, beatsOf_eq, specRunning,
        List.take_succ_cons, List.map_cons, List.sum_cons, add_assoc]

theorem relayout_getElem? (e : CppEngine) (i : Nat) :
    (relayout e).notes[i]? =
      (e.notes[i]?).map (fun n =>
        { n with x := specX e.notes e.staff_width i,
                 y := codeY e.staff_height n.midi }) := by
  unfold relayout
  by_cases hne : e.notes = []
  · simp [hne]
  · have hE : e.notes.isEmpty = false := by
      cases hn : e.notes with
      | nil => exact absurd hn hne
      | cons a l => rfl
    simp only [hE, Bool.false_eq_true, if_false, layoutLoop_getElem?,
      totalBeats_eq e.notes hne, zero_add, specX]

theorem relayout_length (e : CppEngine) : (relayout e).notes.length = e.notes.length := by
  unfold relayout
  split
  · rfl
  · simp [layoutLoop_length]

theorem relayout_staff (e : CppEngine) :
    (relayout e).staff_width = e.staff_width ∧
      (relayout e).staff_height = e.staff_height := by
  unfold relayout
  split <;> simp

theorem get_note_relayout (e : CppEngine) (i : Nat) (n : CppNote)
    (hn : e.notes[i]? = some n) :
    cpp_engine_get_note (some (relayout e)) i =
      { n with x := specX e.notes e.staff_width i,
               y := codeY e.staff_height n.midi } := by
  simp [cpp_engine_get_note, relayout_getElem?, hn]

theorem specRunning_nonneg (notes : List CppNote) (i : Nat) :
    0 ≤ specRunning notes i := by
  have h := specTotal_nonneg (notes.take i)
  simpa [specRunning, specTotal] using h

theorem specRunning_le_total (notes : List CppNote) (i : Nat) :
    specRunning notes i ≤ specTotal notes := by
  induction notes generalizing i with
  | nil => simp [specRunning, specTotal]
  | cons n ns ih =>
    cases i with
    | zero =>
      have h := specTotal_nonneg (n :: ns)
      simpa [specRunning] using h
    | succ k =>
      have h := ih k
      simp only [specRunning, specTotal, List.take_succ_cons, List.map_cons,
        List.sum_cons] at h ⊢
      linarith

theorem twoNoteEngine_eq : twoNoteEngine = some (relayout twoNotePending) := by
  simp [twoNoteEngine, twoNotePending, cpp_engine_add_note, cpp_engine_new, relayout,
    layoutLoop, totalBeats, sumLoop, beatsOf, wrapInt32]

theorem specTotal_congr (ns ms : List CppNote)
    (h : ns.map (fun n => n.duration_beats) = ms.map (fun n => n.duration_beats)) :
    specTotal ns = specTotal ms := by
  have key : ∀ l : List CppNote, specTotal l =
      ((l.map (fun n => n.duration_beats)).map effectiveDuration).sum := by
    intro l
    simp [specTotal, List.map_map, Function.comp_def]
  rw [key, key, h]

theorem specRunning_congr (ns ms : List CppNote) (i : Nat)
    (h : ns.map (fun n => n.duration_beats) = ms.map (fun n => n.duration_beats)) :
    specRunning ns i = specRunning ms i := by
  have h2 : (ns.take i).map (fun n => n.duration_beats) =
      (ms.take i).map (fun n => n.duration_beats) := by
    rw [List.map_take, List.map_take, h]
  exact specTotal_congr _ _ h2

theorem specX_congr (ns ms : List CppNote) (w : ℚ) (i : Nat)
    (h : ns.map (fun n => n.duration_beats) = ms.map (fun n => n.duration_beats)) :
    specX ns w i = specX ms w i := by
  unfold specX
  rw [specRunning_congr ns ms i h, specTotal_congr ns ms h]

theorem relayout_durations (e : CppEngine) :
    (relayout e).notes.map (fun n => n.duration_beats) =
      e.notes.map (fun n => n.duration_beats) := by
  apply List.ext_getElem?
  intro i
  rw [List.getElem?_map, List.getElem?_map, relayout_getElem?]
  cases e.notes[i]? <;> simp

theorem relayout_keys (e : CppEngine) :
    (relayout e).notes.map (fun n => (n.midi, n.duration_beats)) =
      e.notes.map (fun n => (n.midi, n.duration_beats)) := by
  apply List.ext_getElem?
  intro i
  rw [List.getElem?_map, List.getElem?_map, relayout_getElem?]
  cases e.notes[i]? <;> simp

theorem durations_of_keys (ns ms : List CppNote)
    (hk : ns.map (fun n => (n.midi, n.duration_beats)) =
      ms.map (fun n => (n.midi, n.duration_beats))) :
    ns.map (fun n => n.duration_beats) = ms.map (fun n => n.duration_beats) := by
  have h := congrArg (List.map Prod.snd) hk
  simpa [List.map_map, Function.comp_def] using h

/-- The result of `relayout` depends on the notes only through their pitches
and durations. -/
theorem relayout_congr (e f : CppEngine)
    (hw : e.staff_width = f.staff_width) (hh : e.staff_height = f.staff_height)
    (hk : e.notes.map (fun n => (n.midi, n.duration_beats)) =
      f.notes.map (fun n => (n.midi, n.duration_beats))) :
    (relayout e).notes.map (fun n => (n.midi, n.duration_beats, n.x, n.y)) =
      (relayout f).notes.map (fun n => (n.midi, n.duration_beats, n.x, n.y)) := by
  have hd := durations_of_keys _ _ hk
  apply List.ext_getElem?
  intro i
  have hki := congrArg (fun l => l[i]?) hk
  simp only [List.getElem?_map] at hki
  rw [List.getElem?_map, List.getElem?_map, relayout_getElem?, relayout_getElem?,
    ← hw, ← hh, ← specX_congr e.notes f.notes _ i hd]
  cases hi : e.notes[i]? with
  | none =>
    cases hj : f.notes[i]? with
    | none => rfl
    | some m => rw [hi, hj] at hki; simp at hki
  | some n =>
    cases hj : f.notes[i]? with
    | none => rw [hi, hj] at hki; simp at hki
    | some m =>
      rw [hi, hj] at hki
      simp only [Option.map_some', Option.some.injEq, Prod.mk.injEq] at hki
      simp [hki.1, hki.2]

theorem CppNote.eq_of_fields (a b : CppNote)
    (h : (a.midi, a.duration_beats, a.x, a.y) = (b.midi, b.duration_beats, b.x, b.y)) :
    a = b := by
  cases a; cases b
  simp only [Prod.mk.injEq] at h
  obtain ⟨h1, h2, h3, h4⟩ := h
  subst h1 h2 h3 h4
  rfl

theorem notes_eq_of_fields (ns ms : List CppNote)
    (h : ns.map (fun n => (n.midi, n.duration_beats, n.x, n.y)) =
      ms.map (fun n => (n.midi, n.duration_beats, n.x, n.y))) : ns = ms := by
  induction ns generalizing ms with
  | nil =>
    cases ms with
    | nil => rfl
    | cons m ms => simp at h
  | cons n ns ih =>
    cases ms with
    | nil => simp at h
    | cons m ms =>
      simp only [List.map_cons, List.cons.injEq] at h
      rw [CppNote.eq_of_fields n m h.1, ih ms h.2]

theorem relayout_idem (e : CppEngine) : relayout (relayout e) = relayout e := by
  obtain ⟨hw, hh⟩ := relayout_staff e
  obtain ⟨hw2, hh2⟩ := relayout_staff (relayout e)
  apply CppEngine.ext
  · exact notes_eq_of_fields _ _
      (relayout_congr (relayout e) e hw hh (relayout_keys e))
  · rw [hw2]
  · rw [hh2]

theorem relayout_erasePositions (e : CppEngine) :
    relayout { e with notes := erasePositions e.notes } = relayout e := by
  obtain ⟨hw, hh⟩ := relayout_staff e
  obtain ⟨hw2, hh2⟩ := relayout_staff { e with notes := erasePositions e.notes }
  apply CppEngine.ext
  · apply notes_eq_of_fields
    apply relayout_congr { e with notes := erasePositions e.notes } e rfl rfl
    simp [erasePositions, List.map_map, Function.comp_def]
  · rw [hw2, hw]
  · rw [hh2, hh]

theorem effectiveDuration_clamp (n : CppNote) :
    effectiveDuration
        (if n.duration_beats ≤ 0 then { n with duration_beats := 1 / 4 } else n).duration_beats =
      effectiveDuration n.duration_beats := by
  by_cases h : n.duration_beats ≤ 0
  · have h2 : ¬ 0 < n.duration_beats := not_lt.mpr h
    simp [h, h2, effectiveDuration]
  · simp [h]

theorem specX_clampDurations (ns : List CppNote) (w : ℚ) (i : Nat) :
    specX (clampDurations ns) w i = specX ns w i := by
  have hmap : ∀ l : List CppNote,
      (clampDurations l).map (fun n => effectiveDuration n.duration_beats) =
        l.map (fun n => effectiveDuration n.duration_beats) := by
    intro l
    simp only [clampDurations, List.map_map, Function.comp_def, effectiveDuration_clamp]
  have htake : (clampDurations ns).take i = clampDurations (ns.take i) := by
    simp [clampDurations, List.map_take]
  simp only [specX, specRunning, specTotal, htake, hmap]

theorem get_note_append_new (e : CppEngine) (note : CppNote) :
    (e.notes ++ [note])[e.notes.length]? = some note := by
  simp

theorem runOps_invariant (ops : List Op) (e : CppEngine) (he : relayout e = e) :
    ∃ r, ops.foldl applyOp (some e) = some r ∧ relayout r = r := by
  induction ops generalizing e with
  | nil => exact ⟨e, rfl, he⟩
  | cons op ops ih =>
    cases op with
    | addNote midi d =>
      exact ih _ (relayout_idem _)
    | clear =>
      exact ih { e with notes := [] } (by simp [relayout])
    | setStaffGeometry w h =>
      exact ih _ (relayout_idem _)

theorem allZeroEngine_eq : allZeroEngine = some
    { notes := [{ midi := 5, duration_beats := 1 / 4, x := 12, y := 0 },
                { midi := 0, duration_beats := 0, x := 0, y := 0 }],
      staff_width := 0, staff_height := 0 } := by
  simp [allZeroEngine, cpp_engine_add_note, cpp_engine_set_staff_geometry,
    cpp_engine_new, relayout, layoutLoop, totalBeats, sumLoop, beatsOf, wrapInt32]
  norm_num

/-- Two engines with the same geometry and the same pitches and durations
have the same `relayout`. -/
theorem relayout_eq_of_keys (e f : CppEngine)
    (hw : e.staff_width = f.staff_width) (hh : e.staff_height = f.staff_height)
    (hk : e.notes.map (fun n => (n.midi, n.duration_beats)) =
      f.notes.map (fun n => (n.midi, n.duration_beats))) :
    relayout e = relayout f := by
  obtain ⟨hw1, hh1⟩ := relayout_staff e
  obtain ⟨hw2, hh2⟩ := relayout_staff f
  apply CppEngine.ext
  · exact notes_eq_of_fields _ _ (relayout_congr e f hw hh hk)
  · rw [hw1, hw2, hw]
  · rw [hh1, hh2, hh]

theorem addNotes_cons (e : CppEngine) (p : Int × ℚ) (ps : List (Int × ℚ)) :
    addNotes (some e) (p :: ps) =
      some (relayout { e with notes := e.notes ++ (p :: ps).map mkNote }) := by
  induction ps generalizing e p with
  | nil => rfl
  | cons q qs ih =>
    have hstep : addNotes (some e) (p :: q :: qs) =
        addNotes (some (relayout { e with notes := e.notes ++ [mkNote p] })) (q :: qs) := rfl
    rw [hstep, ih]
    congr 1
    obtain ⟨hw, hh⟩ := relayout_staff { e with notes := e.notes ++ [mkNote p] }
    apply relayout_eq_of_keys
    · exact hw
    · exact hh
    · have hk := relayout_keys { e with notes := e.notes ++ [mkNote p] }
      simp only [List.map_append, hk]
      simp

theorem specRunning_succ (notes : List CppNote) (i : Nat) (n : CppNote)
    (hn : notes[i]? = some n) :
    specRunning notes (i + 1) =
      specRunning notes i + effectiveDuration n.duration_beats := by
  induction notes generalizing i with
  | nil => simp at hn
  | cons m ms ih =>
    cases i with
    | zero =>
      simp only [List.getElem?_cons_zero, Option.some.injEq] at hn
      simp [specRunning, hn]
    | succ k =>
      simp only [List.getElem?_cons_succ] at hn
      have h := ih k hn
      simp only [specRunning, List.take_succ_cons, List.map_cons, List.sum_cons] at h ⊢
      rw [h]
      ring

theorem specRunning_lt_succ (notes : List CppNote) (i : Nat) (hi : i < notes.length) :
    specRunning notes i < specRunning notes (i + 1) := by
  have hn : notes[i]? = some (notes[i]) := List.getElem?_eq_getElem hi
  rw [specRunning_succ notes i _ hn]
  have := effectiveDuration_pos (notes[i]).duration_beats
  linarith

theorem specRunning_strictMono (notes : List CppNote) (i j : Nat)
    (hij : i < j) (hj : j ≤ notes.length) :
    specRunning notes i < specRunning notes j := by
  induction j with
  | zero => omega
  | succ k ih =>
    have hk : k < notes.length := by omega
    have hstep := specRunning_lt_succ notes k hk
    by_cases hik : i = k
    · rw [hik]
      exact hstep
    · have := ih (by omega) (by omega)
      linarith

theorem specRunning_length (notes : List CppNote) :
    specRunning notes notes.length = specTotal notes := by
  simp [specRunning, specTotal]

theorem specRunning_lt_total (notes : List CppNote) (i : Nat) (hi : i < notes.length) :
    specRunning notes i < specTotal notes := by
  rw [← specRunning_length]
  exact specRunning_strictMono notes i notes.length hi (le_refl _)

theorem get_note_x_relayout (e : CppEngine) (i : Nat) (hi : i < e.notes.length) :
    (cpp_engine_get_note (some (relayout e)) i).x =
      12 + (specRunning e.notes i / specTotal e.notes) * (e.staff_width - 24) := by
  have hn : e.notes[i]? = some (e.notes[i]) := List.getElem?_eq_getElem hi
  rw [get_note_relayout e i _ hn, specX]

theorem specTotal_scale (k : ℚ) (hk : 0 < k) (notes : List CppNote)
    (hpos : ∀ n ∈ notes, 0 < n.duration_beats) :
    specTotal (scaleDurations k notes) = k * specTotal notes := by
  induction notes with
  | nil => simp [specTotal, scaleDurations]
  | cons m ms ih =>
    have hm : 0 < m.duration_beats := hpos m (List.mem_cons_self _ _)
    have hkm : 0 < k * m.duration_beats := mul_pos hk hm
    have hrest := ih (fun n hn => hpos n (List.mem_cons_of_mem _ hn))
    simp only [specTotal, scaleDurations, List.map_cons, List.sum_cons] at hrest ⊢
    rw [hrest]
    simp only [effectiveDuration, hm, hkm, if_true]
    ring

theorem specX_scale (k : ℚ) (hk : 0 < k) (notes : List CppNote)
    (hpos : ∀ n ∈ notes, 0 < n.duration_beats) (w : ℚ) (i : Nat) :
    specX (scaleDurations k notes) w i = specX notes w i := by
  have htake : (scaleDurations k notes).take i = scaleDurations k (notes.take i) := by
    simp [scaleDurations, List.map_take]
  have hrun : specRunning (scaleDurations k notes) i = k * specRunning notes i := by
    have h := specTotal_scale k hk (notes.take i)
      (fun n hn => hpos n (List.mem_of_mem_take hn))
    simpa [specRunning, specTotal, htake] using h
  unfold specX
  rw [hrun, specTotal_scale k hk notes hpos, mul_div_mul_left _ _ (ne_of_gt hk)]

/-! ## Lemmas on the binary32 reading -/

theorem b32_layoutLoop_getElem? (w h t : F32) (notes : List Binary32.CppNote)
    (r : F32) (i : Nat) :
    (Binary32.layoutLoop w h t r notes)[i]? =
      (notes[i]?).map (fun n =>
        { n with
          x := F32.add (F32.ofInt 12)
            (F32.mul (F32.div (Binary32.sumLoop r (notes.take i)) t)
              (F32.sub w (F32.ofInt 24))),
          y := Binary32.layoutY h n.midi }) := by
  induction notes generalizing r i with
  | nil => simp [Binary32.layoutLoop]
  | cons n ns ih =>
    cases i with
    | zero => simp [Binary32.layoutLoop, Binary32.sumLoop, Binary32.layoutY]
    | succ k =>
      simp only [Binary32.layoutLoop, List.getElem?_cons_succ, ih, List.take_succ_cons,
        Binary32.sumLoop]

theorem b32_relayout_getElem? (e : Binary32.CppEngine) (i : Nat) :
    (Binary32.relayout e).notes[i]? =
      (e.notes[i]?).map (fun n =>
        { n with x := Binary32.layoutX e.notes e.staff_width i,
                 y := Binary32.layoutY e.staff_height n.midi }) := by
  unfold Binary32.relayout
  by_cases hne : e.notes = []
  · simp [hne]
  · have hE : e.notes.isEmpty = false := by
      cases hn : e.notes with
      | nil => exact absurd hn hne
      | cons a l => rfl
    simp only [hE, Bool.false_eq_true, if_false, b32_layoutLoop_getElem?,
      Binary32.layoutX]

theorem b32_layoutLoop_length (w h t : F32) (notes : List Binary32.CppNote) (r : F32) :
    (Binary32.layoutLoop w h t r notes).length = notes.length := by
  induction notes generalizing r with
  | nil => simp [Binary32.layoutLoop]
  | cons n ns ih => simp [Binary32.layoutLoop, ih]

theorem b32_relayout_length (e : Binary32.CppEngine) :
    (Binary32.relayout e).notes.length = e.notes.length := by
  unfold Binary32.relayout
  split
  · rfl
  · simp [b32_layoutLoop_length]

theorem b32_relayout_staff (e : Binary32.CppEngine) :
    (Binary32.relayout e).staff_width = e.staff_width ∧
      (Binary32.relayout e).staff_height = e.staff_height := by
  unfold Binary32.relayout
  split <;> simp

theorem b32_get_note_relayout (e : Binary32.CppEngine) (i : Nat) (n : Binary32.CppNote)
    (hn : e.notes[i]? = some n) :
    Binary32.cpp_engine_get_note (some (Binary32.relayout e)) i =
      { n with x := Binary32.layoutX e.notes e.staff_width i,
               y := Binary32.layoutY e.staff_height n.midi } := by
  simp [Binary32.cpp_engine_get_note, b32_relayout_getElem?, hn]

theorem b32_layoutY_eq_formulaY (h : F32) (midi : Int) (hm : offsetFits midi) :
    Binary32.layoutY h midi = Binary32.formulaY h midi := by
  obtain ⟨h1, h2⟩ := hm
  have hw : wrapInt32 (midi - 64) = midi - 64 :=
    wrapInt32_of_fits _ ⟨by linarith, by linarith⟩
  simp only [Binary32.layoutY, Binary32.formulaY, hw]

/-! ## Rounding lemmas of the binary32 reading -/

set_option maxRecDepth 100000

theorem f32_shiftOf_spec (f q : Nat) (hq : q < 2 ^ 24 * 2 ^ f) :
    q / 2 ^ (F32.shiftOf f q) < 2 ^ 24 ∧
      (F32.shiftOf f q = 0 ∨ 2 ^ 23 ≤ q / 2 ^ (F32.shiftOf f q)) := by
  induction f generalizing q with
  | zero =>
    have h0 : F32.shiftOf 0 q = 0 := rfl
    rw [h0, pow_zero, Nat.div_one]
    exact ⟨by simpa using hq, Or.inl rfl⟩
  | succ k ih =>
    unfold F32.shiftOf
    by_cases hlt : q < 2 ^ 24
    · rw [if_pos hlt, pow_zero, Nat.div_one]
      exact ⟨hlt, Or.inl rfl⟩
    · rw [if_neg hlt]
      have hq2 : q / 2 < 2 ^ 24 * 2 ^ k := by
        have h2 : 2 ^ 24 * 2 ^ (k + 1) = 2 * (2 ^ 24 * 2 ^ k) := by ring
        omega
      obtain ⟨h1, h2⟩ := ih (q / 2) hq2
      have hdiv : q / 2 ^ (F32.shiftOf k (q / 2) + 1) = q / 2 / 2 ^ (F32.shiftOf k (q / 2)) := by
        rw [pow_succ, mul_comm, Nat.div_div_eq_div_mul]
      rw [hdiv]
      refine ⟨h1, Or.inr ?_⟩
      rcases h2 with h0 | hge
      · rw [h0, pow_zero, Nat.div_one]
        omega
      · exact hge

theorem f32_rneDiv_le (n d : Nat) : F32.rneDiv n d ≤ n / d + 1 := by
  unfold F32.rneDiv
  simp only
  split
  · omega
  · split
    · omega
    · split <;> omega

theorem f32_rneDiv_ge (n d : Nat) : n / d ≤ F32.rneDiv n d := by
  unfold F32.rneDiv
  simp only
  split
  · omega
  · split
    · omega
    · split <;> omega

theorem f32_rneDiv_down (n d : Nat) (h : 2 * (n % d) < d) : F32.rneDiv n d = n / d := by
  unfold F32.rneDiv
  simp only [h, if_true]


theorem f32_overflowMag_eq : F32.overflowMag = 2 ^ 277 := by
  unfold F32.overflowMag
  rw [← pow_add]

theorem f32_rneDiv_one (n : Nat) : F32.rneDiv n 1 = n := by
  rw [f32_rneDiv_down n 1 (by rw [Nat.mod_one]; decide), Nat.div_one]

/-- Rounding a magnitude that exceeds `FLT_MAX` by at most 24 stays finite. -/
theorem f32_roundMag_near_max (n : Nat) (hn : n ≤ F32.maxMag + 24 * F32.unitsPerOne) :
    F32.roundMag n 1 < F32.overflowMag := by
  have hn1 : n < F32.overflowMag := by
    have : F32.maxMag + 24 * F32.unitsPerOne < F32.overflowMag := by
      norm_num [F32.maxMag, F32.unitsPerOne, F32.overflowMag]
    omega
  have hfuel : n / 1 < 2 ^ 24 * 2 ^ 256 := by
    rw [Nat.div_one]
    have : F32.overflowMag ≤ 2 ^ 24 * 2 ^ 256 := by norm_num [F32.overflowMag]
    omega
  obtain ⟨hlt, hs⟩ := f32_shiftOf_spec 256 (n / 1) hfuel
  unfold F32.roundMag
  simp only
  generalize F32.shiftOf 256 (n / 1) = s at hlt hs
  rw [Nat.div_one] at hlt hs
  rw [one_mul]
  rcases hs with h0 | hge
  · subst h0
    rw [pow_zero, f32_rneDiv_one, mul_one]
    exact hn1
  · have hmul : 2 ^ 23 * 2 ^ s ≤ n := (Nat.le_div_iff_mul_le (by positivity)).mp hge
    have hs254 : s < 254 := by
      have h1 : 2 ^ (23 + s) < 2 ^ 277 := by
        rw [pow_add, ← f32_overflowMag_eq]
        omega
      have := (Nat.pow_lt_pow_iff_right (by norm_num : 1 < 2)).mp h1
      omega
    by_cases hs252 : s ≤ 252
    · have hv : F32.rneDiv n (2 ^ s) ≤ 2 ^ 24 := by
        have := f32_rneDiv_le n (2 ^ s)
        omega
      calc F32.rneDiv n (2 ^ s) * 2 ^ s ≤ 2 ^ 24 * 2 ^ s := Nat.mul_le_mul_right _ hv
        _ ≤ 2 ^ 24 * 2 ^ 252 :=
            Nat.mul_le_mul_left _ (Nat.pow_le_pow_right (by norm_num) hs252)
        _ < F32.overflowMag := by norm_num [F32.overflowMag]
    · have hs253 : s = 253 := by omega
      subst hs253
      have hv : F32.rneDiv n (2 ^ 253) ≤ 2 ^ 24 - 1 := by
        unfold F32.rneDiv
        norm_num [F32.maxMag, F32.unitsPerOne] at hn ⊢
        split_ifs <;> omega
      calc F32.rneDiv n (2 ^ 253) * 2 ^ 253 ≤ (2 ^ 24 - 1) * 2 ^ 253 :=
            Nat.mul_le_mul_right _ hv
        _ < F32.overflowMag := by norm_num [F32.overflowMag]


theorem f32_roundMag_zero (d : Nat) : F32.roundMag 0 d = 0 := by
  have hs : F32.shiftOf 256 (0 / d) = 0 := by
    rw [Nat.zero_div]
    rfl
  unfold F32.roundMag
  simp only [hs, pow_zero, mul_one]
  unfold F32.rneDiv
  simp only [Nat.zero_div, Nat.zero_mod, mul_zero]
  split_ifs <;> first | rfl | omega

theorem f32_round_zero (s : Bool) (d : Nat) : F32.round s 0 d = F32.fin s 0 := by
  have hpos : ¬ F32.overflowMag ≤ 0 := by norm_num [F32.overflowMag]
  unfold F32.round
  simp only [Nat.zero_div, f32_roundMag_zero, hpos, if_false]

theorem f32_round_shape (s : Bool) (n d : Nat) :
    F32.round s n d = F32.inf s ∨ ∃ k, F32.round s n d = F32.fin s k := by
  unfold F32.round
  simp only
  split
  · exact Or.inl rfl
  · split
    · exact Or.inl rfl
    · exact Or.inr ⟨_, rfl⟩

theorem f32_add_nonneg (a b : F32)
    (ha : a = F32.inf false ∨ ∃ m, a = F32.fin false m)
    (hb : b = F32.inf false ∨ ∃ m, b = F32.fin false m) :
    F32.add a b = F32.inf false ∨ ∃ m, F32.add a b = F32.fin false m := by
  rcases ha with ha | ⟨m, ha⟩ <;> rcases hb with hb | ⟨n, hb⟩ <;> subst ha <;> subst hb
  · exact Or.inl rfl
  · exact Or.inl rfl
  · exact Or.inl rfl
  · unfold F32.add
    simp only [F32.signed, Bool.false_eq_true, if_false, Bool.and_self]
    split
    · exact Or.inr ⟨0, rfl⟩
    · have hz : ¬ ((m : Int) + (n : Int) < 0) := by omega
      simp only [hz, decide_False]
      exact f32_round_shape false _ 1

theorem b32_beatsOf_nonneg (n : Binary32.CppNote) :
    Binary32.beatsOf n = F32.inf false ∨ ∃ m, Binary32.beatsOf n = F32.fin false m := by
  unfold Binary32.beatsOf
  split
  · rename_i hlt
    cases hd : n.duration_beats with
    | nan => rw [hd] at hlt; simp [F32.lt, F32.zero] at hlt
    | inf a =>
      rw [hd] at hlt
      cases a with
      | false => exact Or.inl rfl
      | true => simp [F32.lt, F32.zero] at hlt
    | fin a m =>
      rw [hd] at hlt
      cases a with
      | false => exact Or.inr ⟨m, rfl⟩
      | true =>
        simp only [F32.lt, F32.zero, F32.signed, Bool.false_eq_true, if_false, if_true,
          decide_eq_true_eq] at hlt
        omega
  · exact Or.inr ⟨_, rfl⟩

theorem b32_sumLoop_nonneg (notes : List Binary32.CppNote) (acc : F32)
    (hacc : acc = F32.inf false ∨ ∃ m, acc = F32.fin false m) :
    Binary32.sumLoop acc notes = F32.inf false ∨
      ∃ m, Binary32.sumLoop acc notes = F32.fin false m := by
  induction notes generalizing acc with
  | nil => exact hacc
  | cons n ns ih =>
    exact ih _ (f32_add_nonneg _ _ hacc (b32_beatsOf_nonneg n))

theorem b32_totalBeats_pos (notes : List Binary32.CppNote) :
    Binary32.totalBeats notes = F32.inf false ∨
      ∃ m, m ≠ 0 ∧ Binary32.totalBeats notes = F32.fin false m := by
  unfold Binary32.totalBeats
  simp only
  rcases b32_sumLoop_nonneg notes F32.zero (Or.inr ⟨0, rfl⟩) with h | ⟨m, h⟩
  · rw [h]
    exact Or.inl rfl
  · rw [h]
    by_cases hm : m = 0
    · subst hm
      exact Or.inr ⟨2 ^ 149, by norm_num, by decide⟩
    · have hle : F32.le (F32.fin false m) F32.zero = false := by
        simp only [F32.le, F32.zero, F32.signed, Bool.false_eq_true, if_false,
          decide_eq_false_iff_not]
        omega
      rw [hle]
      exact Or.inr ⟨m, hm, rfl⟩

theorem f32_zero_div_pos (t : F32)
    (ht : t = F32.inf false ∨ ∃ m, m ≠ 0 ∧ t = F32.fin false m) :
    F32.div F32.zero t = F32.zero := by
  rcases ht with ht | ⟨m, hm, ht⟩ <;> subst ht
  · rfl
  · simp only [F32.div, F32.zero, hm, if_false, Nat.zero_mul, f32_round_zero, Bool.xor_false]

theorem f32_zero_mul_fin (b : Bool) (n : Nat) :
    F32.mul F32.zero (F32.fin b n) = F32.fin b 0 := by
  simp only [F32.mul, F32.zero, Nat.zero_mul, f32_round_zero, Bool.false_xor]

theorem f32_sub_24_finite (s : Bool) (m : Nat) (hm : m ≤ F32.maxMag) :
    ∃ b k, F32.sub (F32.fin s m) (F32.ofInt 24) = F32.fin b k := by
  have h24 : F32.ofInt 24 = F32.fin false (24 * F32.unitsPerOne) := by decide
  rw [h24]
  unfold F32.sub F32.neg F32.add
  simp only
  split
  · exact ⟨_, _, rfl⟩
  · have hbound : (F32.signed s m + F32.signed (!false) (24 * F32.unitsPerOne)).natAbs ≤
        F32.maxMag + 24 * F32.unitsPerOne := by
      cases s <;> simp only [F32.signed, Bool.not_false, Bool.false_eq_true, if_true, if_false] <;>
        omega
    have hr := f32_roundMag_near_max _ hbound
    have hn1 : ¬ F32.overflowMag ≤
        (F32.signed s m + F32.signed (!false) (24 * F32.unitsPerOne)).natAbs / 1 := by
      have : F32.maxMag + 24 * F32.unitsPerOne < F32.overflowMag := by
        norm_num [F32.maxMag, F32.unitsPerOne, F32.overflowMag]
      rw [Nat.div_one]
      omega
    unfold F32.round
    simp only [hn1, if_false, not_le.mpr hr]
    exact ⟨_, _, rfl⟩

theorem f32_twelve_add_zero (b : Bool) :
    F32.add (F32.ofInt 12) (F32.fin b 0) = F32.ofInt 12 := by
  cases b <;> decide

theorem b32_layoutX_first (notes : List Binary32.CppNote) (s : Bool) (m : Nat)
    (hm : m ≤ F32.maxMag) :
    Binary32.layoutX notes (F32.fin s m) 0 = F32.ofInt 12 := by
  obtain ⟨b, k, hsub⟩ := f32_sub_24_finite s m hm
  unfold Binary32.layoutX
  rw [List.take_zero]
  simp only [Binary32.sumLoop]
  rw [f32_zero_div_pos _ (b32_totalBeats_pos notes), hsub, f32_zero_mul_fin,
    f32_twelve_add_zero]


theorem f32_rneDiv_mul_le (n d : Nat) : F32.rneDiv n d * d ≤ 2 * n := by
  have hdm := Nat.div_add_mod n d
  have hcomm : d * (n / d) = n / d * d := Nat.mul_comm _ _
  have hq : n / d * d ≤ n := Nat.div_mul_le_self n d
  unfold F32.rneDiv
  simp only
  split_ifs
  · omega
  · rw [Nat.add_mul, one_mul]
    omega
  · omega
  · rw [Nat.add_mul, one_mul]
    omega

theorem f32_rneDiv_mul_ge (n d : Nat) (hd : 0 < d) (hv : F32.rneDiv n d ≠ 0) :
    n ≤ 2 * (F32.rneDiv n d * d) := by
  have hdm := Nat.div_add_mod n d
  have hr : n % d < d := Nat.mod_lt n hd
  have hcomm : d * (n / d) = n / d * d := Nat.mul_comm _ _
  have hup : n ≤ (n / d + 1) * d := by
    rw [Nat.add_mul, one_mul]
    omega
  have hdown : n / d ≠ 0 → n ≤ 2 * (n / d * d) := by
    intro h0
    have : d ≤ n / d * d := Nat.le_mul_of_pos_left d (Nat.pos_of_ne_zero h0)
    omega
  unfold F32.rneDiv at hv ⊢
  simp only at hv ⊢
  split_ifs at hv ⊢
  · exact hdown hv
  · omega
  · exact hdown hv
  · omega

theorem f32_roundMag_mul_le (n d : Nat) : F32.roundMag n d * d ≤ 2 * n := by
  unfold F32.roundMag
  simp only
  have h := f32_rneDiv_mul_le n (d * 2 ^ F32.shiftOf 256 (n / d))
  calc F32.rneDiv n (d * 2 ^ F32.shiftOf 256 (n / d)) * 2 ^ F32.shiftOf 256 (n / d) * d
      = F32.rneDiv n (d * 2 ^ F32.shiftOf 256 (n / d)) *
          (d * 2 ^ F32.shiftOf 256 (n / d)) := by ring
    _ ≤ 2 * n := h

theorem f32_roundMag_mul_ge (n d : Nat) (hd : 0 < d) (hR : F32.roundMag n d ≠ 0) :
    n ≤ 2 * (F32.roundMag n d * d) := by
  unfold F32.roundMag at hR ⊢
  simp only at hR ⊢
  have hv : F32.rneDiv n (d * 2 ^ F32.shiftOf 256 (n / d)) ≠ 0 := by
    intro h0
    rw [h0, Nat.zero_mul] at hR
    exact hR rfl
  have h := f32_rneDiv_mul_ge n (d * 2 ^ F32.shiftOf 256 (n / d)) (by positivity) hv
  calc n ≤ 2 * (F32.rneDiv n (d * 2 ^ F32.shiftOf 256 (n / d)) *
          (d * 2 ^ F32.shiftOf 256 (n / d))) := h
    _ = 2 * (F32.rneDiv n (d * 2 ^ F32.shiftOf 256 (n / d)) *
          2 ^ F32.shiftOf 256 (n / d) * d) := by ring

theorem f32_roundMag_ne_zero (n d : Nat) (hd : 0 < d) (hnd : d ≤ n)
    (hq : n / d < F32.overflowMag) : F32.roundMag n d ≠ 0 := by
  have hfuel : n / d < 2 ^ 24 * 2 ^ 256 := by
    have : F32.overflowMag ≤ 2 ^ 24 * 2 ^ 256 := by norm_num [F32.overflowMag]
    omega
  obtain ⟨_, hs⟩ := f32_shiftOf_spec 256 (n / d) hfuel
  have hq1 : 1 ≤ n / d := (Nat.one_le_div_iff hd).mpr hnd
  unfold F32.roundMag
  simp only
  generalize F32.shiftOf 256 (n / d) = s at hs
  have hquot : 1 ≤ n / (d * 2 ^ s) := by
    rw [← Nat.div_div_eq_div_mul]
    rcases hs with h0 | hge
    · rw [h0, pow_zero, Nat.div_one]
      exact hq1
    · omega
  have hv := f32_rneDiv_ge n (d * 2 ^ s)
  have hpow : 0 < 2 ^ s := by positivity
  have : 0 < F32.rneDiv n (d * 2 ^ s) * 2 ^ s := Nat.mul_pos (by omega) hpow
  omega


theorem f32_round_shape_pos (s : Bool) (n : Nat) (hn : 1 ≤ n) :
    F32.round s n 1 = F32.inf s ∨ ∃ k, k ≠ 0 ∧ F32.round s n 1 = F32.fin s k := by
  unfold F32.round
  simp only
  split
  · exact Or.inl rfl
  · rename_i hq
    split
    · exact Or.inl rfl
    · exact Or.inr ⟨_, f32_roundMag_ne_zero n 1 (by decide) hn (not_le.mp hq), rfl⟩

theorem f32_same_opposite (x y : F32)
    (hx : x = F32.inf true ∨ ∃ k, k ≠ 0 ∧ x = F32.fin true k)
    (hy : y = F32.inf false ∨ ∃ k, k ≠ 0 ∧ y = F32.fin false k) :
    F32.same x y = false ∧ F32.same y x = false := by
  rcases hx with hx | ⟨k, hk, hx⟩ <;> rcases hy with hy | ⟨j, hj, hy⟩ <;> subst hx <;> subst hy
  · exact ⟨rfl, rfl⟩
  · exact ⟨rfl, rfl⟩
  · exact ⟨rfl, rfl⟩
  · simp only [F32.same, F32.signed, if_true, Bool.false_eq_true, if_false,
      decide_eq_false_iff_not]
    constructor <;> omega

/-- Subtracting from `fin a ma` a product of magnitude `2^31 * mc`, once with
the sign of `a` and once with the opposite sign, gives two different numbers
as soon as `mc` is not zero and `ma` is at most `32 * mc`. -/
theorem f32_sign_flip_core (a : Bool) (ma mc : Nat) (hmc : mc ≠ 0) (hma : ma ≤ 32 * mc) :
    F32.same
      (F32.sub (F32.fin a ma) (F32.round a (2 ^ 180 * mc) F32.unitsPerOne))
      (F32.sub (F32.fin a ma) (F32.round (!a) (2 ^ 180 * mc) F32.unitsPerOne)) = false := by
  unfold F32.round
  simp only
  by_cases h1 : F32.overflowMag ≤ 2 ^ 180 * mc / F32.unitsPerOne
  · simp only [h1, if_true]
    cases a <;> rfl
  · simp only [h1, if_false]
    by_cases h2 : F32.overflowMag ≤ F32.roundMag (2 ^ 180 * mc) F32.unitsPerOne
    · simp only [h2, if_true]
      cases a <;> rfl
    · simp only [h2, if_false]
      have hu : F32.unitsPerOne = 2 ^ 149 := rfl
      have hupos : 0 < F32.unitsPerOne := by rw [hu]; positivity
      have hle : F32.unitsPerOne ≤ 2 ^ 180 * mc := by
        rw [hu]
        have : 1 ≤ mc := Nat.pos_of_ne_zero hmc
        calc 2 ^ 149 ≤ 2 ^ 180 := Nat.pow_le_pow_right (by decide) (by decide)
          _ ≤ 2 ^ 180 * mc := Nat.le_mul_of_pos_right _ this
      have hmb0 := f32_roundMag_ne_zero (2 ^ 180 * mc) F32.unitsPerOne hupos hle
        (not_le.mp h1)
      have hge := f32_roundMag_mul_ge (2 ^ 180 * mc) F32.unitsPerOne hupos hmb0
      generalize F32.roundMag (2 ^ 180 * mc) F32.unitsPerOne = mb at hmb0 hge
      have hmb : ma < mb := by
        rw [hu] at hge
        have h180 : (2 : Nat) ^ 180 = 2 ^ 31 * 2 ^ 149 := by rw [← pow_add]
        rw [h180] at hge
        have h3 : 2 ^ 31 * mc * 2 ^ 149 ≤ 2 * mb * 2 ^ 149 := by
          calc 2 ^ 31 * mc * 2 ^ 149 = 2 ^ 31 * 2 ^ 149 * mc := by ring
            _ ≤ 2 * (mb * 2 ^ 149) := hge
            _ = 2 * mb * 2 ^ 149 := by ring
        have h4 : 2 ^ 31 * mc ≤ 2 * mb := Nat.le_of_mul_le_mul_right h3 (by positivity)
        have : 1 ≤ mc := Nat.pos_of_ne_zero hmc
        omega
      cases a with
      | false =>
        have hz : F32.signed false ma + F32.signed true mb ≠ 0 := by
          simp only [F32.signed, Bool.false_eq_true, if_false, if_true]
          omega
        have hzneg : F32.signed false ma + F32.signed true mb < 0 := by
          simp only [F32.signed, Bool.false_eq_true, if_false, if_true]
          omega
        have hz2 : F32.signed false ma + F32.signed false mb ≠ 0 := by
          simp only [F32.signed, Bool.false_eq_true, if_false]
          omega
        have hzpos : ¬ F32.signed false ma + F32.signed false mb < 0 := by
          simp only [F32.signed, Bool.false_eq_true, if_false]
          omega
        simp only [F32.sub, F32.neg, F32.add, Bool.not_false, Bool.not_true, hz, hz2,
          if_false, hzneg, hzpos, decide_True, decide_False]
        exact (f32_same_opposite _ _
          (f32_round_shape_pos true _ (by omega))
          (f32_round_shape_pos false _ (by omega))).1
      | true =>
        have hz : F32.signed true ma + F32.signed false mb ≠ 0 := by
          simp only [F32.signed, Bool.false_eq_true, if_false, if_true]
          omega
        have hzpos : ¬ F32.signed true ma + F32.signed false mb < 0 := by
          simp only [F32.signed, Bool.false_eq_true, if_false, if_true]
          omega
        have hz2 : F32.signed true ma + F32.signed true mb ≠ 0 := by
          simp only [F32.signed, if_true]
          omega
        have hzneg : F32.signed true ma + F32.signed true mb < 0 := by
          simp only [F32.signed, if_true]
          omega
        simp only [F32.sub, F32.neg, F32.add, Bool.not_false, Bool.not_true, hz, hz2,
          if_false, hzneg, hzpos, decide_True, decide_False]
        exact (f32_same_opposite _ _
          (f32_round_shape_pos true _ (by omega))
          (f32_round_shape_pos false _ (by omega))).2


theorem f32_ofInt_below_range :
    ∀ k : Nat, k < 64 →
      F32.ofInt (2147483584 + (k : Int)) = F32.fin false (2 ^ 180) ∧
      F32.ofInt (-2147483712 + (k : Int)) = F32.fin true (2 ^ 180) := by
  decide

theorem f32_ofInt_wrapped (p : Int) (hlo : -(2 ^ 31) ≤ p) (hhi : p < -(2 ^ 31) + 64) :
    F32.ofInt (wrapInt32 (p - 64)) = F32.fin false (2 ^ 180) ∧
      F32.ofInt (p - 64) = F32.fin true (2 ^ 180) := by
  have hwrap : wrapInt32 (p - 64) = p - 64 + 2 ^ 32 := by
    unfold wrapInt32
    have hmod : (p - 64 + 2 ^ 31) % 2 ^ 32 = p - 64 + 2 ^ 31 + 2 ^ 32 := by
      rw [← Int.add_mul_emod_self_left (p - 64 + 2 ^ 31) (2 ^ 32) 1]
      rw [mul_one]
      exact Int.emod_eq_of_lt (by linarith) (by linarith)
    rw [hmod]
    ring
  have hk : (p + 2 ^ 31).toNat < 64 := by omega
  have hp : p = -(2 ^ 31) + ((p + 2 ^ 31).toNat : Int) := by omega
  obtain ⟨h1, h2⟩ := f32_ofInt_below_range _ hk
  rw [hwrap]
  constructor
  · rw [← h1]
    congr 1
    omega
  · rw [← h2]
    congr 1
    omega

theorem f32_ofInt_16 : F32.ofInt 16 = F32.fin false (16 * F32.unitsPerOne) := by decide

/-- For an `int32_t` pitch below `-2^31 + 64` the code's `y` and the value of
the formula over the mathematical `pitch - 64` are different numbers, whenever
the staff height is a binary32 value other than NaN and `staffHeight / 16` is
not zero. -/
theorem b32_layoutY_deviates (h : F32) (p : Int)
    (hlo : -(2 ^ 31) ≤ p) (hhi : p < -(2 ^ 31) + 64)
    (hv : h.isValid = true) (hnan : h ≠ F32.nan)
    (hc : ∀ b, F32.div h (F32.ofInt 16) ≠ F32.fin b 0) :
    F32.same (Binary32.layoutY h p) (Binary32.formulaY h p) = false := by
  obtain ⟨hW, hM⟩ := f32_ofInt_wrapped p hlo hhi
  unfold Binary32.layoutY Binary32.formulaY
  rw [hW, hM, f32_ofInt_16] at *
  cases h with
  | nan => exact absurd rfl hnan
  | inf a => cases a <;> rfl
  | fin a m =>
    have hm : m ≤ F32.maxMag := by
      simp only [F32.isValid, Bool.and_eq_true, decide_eq_true_eq] at hv
      exact hv.1
    have hu : F32.unitsPerOne = 2 ^ 149 := rfl
    have hmax : F32.maxMag < F32.overflowMag := by
      norm_num [F32.maxMag, F32.overflowMag]
    -- the quotient `staffHeight / 16`
    have h16 : (16 * F32.unitsPerOne) ≠ 0 := by rw [hu]; positivity
    have hcq : ¬ F32.overflowMag ≤ m * F32.unitsPerOne / (16 * F32.unitsPerOne) := by
      have : m * F32.unitsPerOne / (16 * F32.unitsPerOne) ≤ m :=
        Nat.div_le_of_le_mul (by nlinarith [Nat.zero_le m, Nat.zero_le F32.unitsPerOne])
      omega
    have hcR := f32_roundMag_mul_le (m * F32.unitsPerOne) (16 * F32.unitsPerOne)
    have hc8 : 8 * F32.roundMag (m * F32.unitsPerOne) (16 * F32.unitsPerOne) ≤ m := by
      have h3 : 8 * F32.roundMag (m * F32.unitsPerOne) (16 * F32.unitsPerOne) *
          F32.unitsPerOne ≤ m * F32.unitsPerOne := by nlinarith
      exact Nat.le_of_mul_le_mul_right h3 (by rw [hu]; positivity)
    have hcfin : ¬ F32.overflowMag ≤
        F32.roundMag (m * F32.unitsPerOne) (16 * F32.unitsPerOne) := by omega
    have hdiv : F32.div (F32.fin a m) (F32.fin false (16 * F32.unitsPerOne)) =
        F32.fin a (F32.roundMag (m * F32.unitsPerOne) (16 * F32.unitsPerOne)) := by
      simp only [F32.div, h16, if_false, F32.round, hcq, hcfin, Bool.xor_false]
    rw [hdiv] at hc ⊢
    have hmc0 : F32.roundMag (m * F32.unitsPerOne) (16 * F32.unitsPerOne) ≠ 0 := by
      intro h0
      exact hc a (by rw [h0])
    have hcge := f32_roundMag_mul_ge (m * F32.unitsPerOne) (16 * F32.unitsPerOne)
      (Nat.pos_of_ne_zero h16) hmc0
    generalize F32.roundMag (m * F32.unitsPerOne) (16 * F32.unitsPerOne) = mc at *
    have hm32 : m ≤ 32 * mc := by
      have h3 : m * F32.unitsPerOne ≤ 32 * mc * F32.unitsPerOne := by nlinarith
      exact Nat.le_of_mul_le_mul_right h3 (by rw [hu]; positivity)
    -- the product `staffHeight * 0.5`
    have haq : ¬ F32.overflowMag ≤ m * 2 ^ 148 / F32.unitsPerOne := by
      have : m * 2 ^ 148 / F32.unitsPerOne ≤ m :=
        Nat.div_le_of_le_mul (by rw [hu]; nlinarith [Nat.zero_le m])
      omega
    have haR := f32_roundMag_mul_le (m * 2 ^ 148) F32.unitsPerOne
    have hma : F32.roundMag (m * 2 ^ 148) F32.unitsPerOne ≤ m := by
      have h3 : F32.roundMag (m * 2 ^ 148) F32.unitsPerOne * F32.unitsPerOne ≤
          m * F32.unitsPerOne := by rw [hu] at haR ⊢; nlinarith
      exact Nat.le_of_mul_le_mul_right h3 (by rw [hu]; positivity)
    have hafin : ¬ F32.overflowMag ≤ F32.roundMag (m * 2 ^ 148) F32.unitsPerOne := by omega
    have hmul : F32.mul (F32.fin a m) F32.half =
        F32.fin a (F32.roundMag (m * 2 ^ 148) F32.unitsPerOne) := by
      simp only [F32.mul, F32.half, F32.round, haq, hafin, if_false, Bool.xor_false]
    rw [hmul]
    have hB1 : F32.mul (F32.fin false (2 ^ 180)) (F32.fin a mc) =
        F32.round a (2 ^ 180 * mc) F32.unitsPerOne := by
      simp only [F32.mul, Bool.false_xor]
    have hB2 : F32.mul (F32.fin true (2 ^ 180)) (F32.fin a mc) =
        F32.round (!a) (2 ^ 180 * mc) F32.unitsPerOne := by
      simp only [F32.mul, Bool.true_xor]
    rw [hB1, hB2]
    exact f32_sign_flip_core a _ mc hmc0 (by omega)

/-! ## The claims -/

/-- C1: for every engine state and every index `i` of its note sequence, after
`relayout` (which `cpp_engine_add_note` and `cpp_engine_set_staff_geometry` run
on the updated engine) note `i` has `x = 12 + (S_i / T) * (staffWidth - 24)`,
where `S_i` sums the effective durations before `i` and `T` sums all of them. -/
theorem C1_relayout_x_formula (e : CppEngine) (i : Nat) (hi : i < e.notes.length) :
    (cpp_engine_get_note (some (relayout e)) i).x =
      12 + (specRunning e.notes i / specTotal e.notes) * (e.staff_width - 24) := by
  have hn : e.notes[i]? = some (e.notes[i]) := List.getElem?_eq_getElem hi
  rw [get_note_relayout e i _ hn, specX]

/-- C1, scenario: create, add (64, 1.0), add (67, 1.0) on the default staff
gives `x = 12` and `x = 380`. -/
theorem C1_relayout_x_formula_witness :
    twoNoteEngine = some (relayout twoNotePending) ∧
      (cpp_engine_get_note (some (relayout twoNotePending)) 0).x = 12 ∧
      (cpp_engine_get_note (some (relayout twoNotePending)) 1).x = 380 := by
  refine ⟨twoNoteEngine_eq, ?_, ?_⟩
  · rw [C1_relayout_x_formula twoNotePending 0 (by decide)]
    norm_num [twoNotePending, specRunning, specTotal, effectiveDuration]
  · rw [C1_relayout_x_formula twoNotePending 1 (by decide)]
    norm_num [twoNotePending, specRunning, specTotal, effectiveDuration]

/-- C2, failing input: for the note whose pitch is the least `int32_t` value
the subtraction `n.midi - 64` leaves the `int32_t` range; with the wrapped
difference the code stores `y = -5368709120` on the default staff, where the
formula `staffHeight/2 - (pitch - 64) * (staffHeight/16)` gives `5368709120`
in binary32. In the two-note scenario the code gives the formula's values,
`y = 20` for pitch 64 and `y = 12.5` for pitch 67. -/
theorem C2_min_pitch_breaks_y_formula :
    isInt32 (-2147483648) ∧ ¬ isInt32 (-2147483648 - 64) ∧
    (Binary32.cpp_engine_get_note Binary32.minPitchEngine 0).midi = -2147483648 ∧
    (Binary32.cpp_engine_get_note Binary32.minPitchEngine 0).y =
      F32.ofInt (-5368709120) ∧
    Binary32.formulaY (F32.ofInt 40) (-2147483648) = F32.ofInt 5368709120 ∧
    F32.same (Binary32.cpp_engine_get_note Binary32.minPitchEngine 0).y
      (Binary32.formulaY (F32.ofInt 40) (-2147483648)) = false ∧
    (Binary32.cpp_engine_get_note Binary32.twoNoteEngine 0).y =
      Binary32.formulaY (F32.ofInt 40) 64 ∧
    (Binary32.cpp_engine_get_note Binary32.twoNoteEngine 0).y = F32.ofInt 20 ∧
    (Binary32.cpp_engine_get_note Binary32.twoNoteEngine 1).y =
      Binary32.formulaY (F32.ofInt 40) 67 ∧
    (Binary32.cpp_engine_get_note Binary32.twoNoteEngine 1).y =
      F32.div (F32.ofInt 25) (F32.ofInt 2) := by
  decide

/-- C4, counterexample: in binary32, on a staff of width `134217776` the
second of two notes of durations `1e8` and `1` gets `x = 134217776`, the staff
width itself, above `staffWidth - 12 = 134217760`; and on the default staff the
third of three notes of durations `2^127`, `2^127`, `1` gets `x = NaN`, for
which `12 <= x` is false. -/
theorem C4_x_bounds_fail_in_binary32 :
    (F32.isValid (F32.ofInt 134217776) = true ∧
      F32.isValid (F32.ofInt 100000000) = true ∧
      F32.lt (F32.ofInt 24) (F32.ofInt 134217776) = true ∧
      (Binary32.cpp_engine_get_note Binary32.roundedWidthEngine 1).x =
        F32.ofInt 134217776 ∧
      F32.sub (F32.ofInt 134217776) (F32.ofInt 12) = F32.ofInt 134217760 ∧
      F32.le (Binary32.cpp_engine_get_note Binary32.roundedWidthEngine 1).x
        (F32.sub (F32.ofInt 134217776) (F32.ofInt 12)) = false) ∧
    (F32.isValid (F32.ofInt (2 ^ 127)) = true ∧
      (Binary32.cpp_engine_get_note Binary32.overflowingEngine 2).x = F32.nan ∧
      F32.le (F32.ofInt 12)
        (Binary32.cpp_engine_get_note Binary32.overflowingEngine 2).x = false) := by
  decide

/-- C4 (amended): with arithmetic read as exact (rational values, no
rounding, no overflow), for every engine whose staff is wider than 24 and every
index `i` of its note sequence, after `relayout` note `i` has
`12 ≤ x ≤ staffWidth - 12`. -/
theorem C4_relayout_x_bounds (e : CppEngine) (i : Nat)
    (hw : 24 < e.staff_width) (hi : i < e.notes.length) :
    12 ≤ (cpp_engine_get_note (some (relayout e)) i).x ∧
      (cpp_engine_get_note (some (relayout e)) i).x ≤ e.staff_width - 12 := by
  have hn : e.notes[i]? = some (e.notes[i]) := List.getElem?_eq_getElem hi
  have hne : e.notes ≠ [] := by
    intro h0
    rw [h0] at hi
    exact absurd hi (by simp)
  have hT := specTotal_pos e.notes hne
  have h0 := specRunning_nonneg e.notes i
  have h1 := specRunning_le_total e.notes i
  have hq0 : 0 ≤ specRunning e.notes i / specTotal e.notes := div_nonneg h0 hT.le
  have hq1 : specRunning e.notes i / specTotal e.notes ≤ 1 :=
    (div_le_one hT).mpr h1
  rw [get_note_relayout e i _ hn]
  show 12 ≤ specX e.notes e.staff_width i ∧ specX e.notes e.staff_width i ≤ _
  unfold specX
  constructor
  · nlinarith [mul_nonneg hq0 (by linarith : (0 : ℚ) ≤ e.staff_width - 24)]
  · nlinarith [mul_nonneg (by linarith : (0 : ℚ) ≤ 1 - specRunning e.notes i /
      specTotal e.notes) (by linarith : (0 : ℚ) ≤ e.staff_width - 24)]

/-- C4, scenario: the second note of the two-note engine on the default staff
of width 760 has `x` between 12 and 748. -/
theorem C4_relayout_x_bounds_witness :
    (24 : ℚ) < twoNotePending.staff_width ∧ 1 < twoNotePending.notes.length ∧
      12 ≤ (cpp_engine_get_note (some (relayout twoNotePending)) 1).x ∧
      (cpp_engine_get_note (some (relayout twoNotePending)) 1).x ≤ 760 - 12 :=
  ⟨by norm_num [twoNotePending], by decide,
    C4_relayout_x_bounds twoNotePending 1 (by norm_num [twoNotePending]) (by decide)⟩

/-- C5, counterexample: in binary32, on a staff whose width is NaN, or
`+inf`, the first (and only) note gets `x = NaN`, not 12. -/
theorem C5_first_x_nan_on_nonfinite_width :
    (Binary32.cpp_engine_get_note Binary32.nanWidthEngine 0).x = F32.nan ∧
    F32.same (Binary32.cpp_engine_get_note Binary32.nanWidthEngine 0).x
      (F32.ofInt 12) = false ∧
    (Binary32.cpp_engine_get_note Binary32.infWidthEngine 0).x = F32.nan ∧
    F32.same (Binary32.cpp_engine_get_note Binary32.infWidthEngine 0).x
      (F32.ofInt 12) = false := by
  decide

/-- C5 (amended): in binary32, for every engine with a non-empty note sequence
(any pitches, any durations, NaN and infinities included, any staff height)
whose staff width is finite, after `relayout` the first note has `x = 12`
exactly. -/
theorem C5_first_x_finite_width (e : Binary32.CppEngine) (hne : e.notes ≠ [])
    (s : Bool) (m : Nat) (hw : e.staff_width = F32.fin s m) (hm : m ≤ F32.maxMag) :
    (Binary32.cpp_engine_get_note (some (Binary32.relayout e)) 0).x = F32.ofInt 12 := by
  cases hn : e.notes with
  | nil => exact absurd hn hne
  | cons n ns =>
    have h0 : e.notes[0]? = some n := by simp [hn]
    rw [b32_get_note_relayout e 0 n h0]
    show Binary32.layoutX e.notes e.staff_width 0 = F32.ofInt 12
    rw [hw]
    exact b32_layoutX_first e.notes s m hm

/-- C5, scenario: a single note of duration NaN on a staff of width `-FLT_MAX`
and height NaN still sits at `x = 12`. -/
theorem C5_first_x_finite_width_witness :
    (Binary32.cpp_engine_get_note (some (Binary32.relayout
      { notes := [{ midi := 3, duration_beats := F32.nan, x := F32.zero,
                    y := F32.zero }],
        staff_width := F32.fin true F32.maxMag, staff_height := F32.nan })) 0).x =
      F32.ofInt 12 :=
  C5_first_x_finite_width _ (by simp) true F32.maxMag rfl (le_refl _)

/-- C6: the positions computed for a note sequence equal those computed for
the sequence in which every non-positive duration is replaced by `0.25`;
`relayout` leaves every stored `duration_beats` as it was, and
`cpp_engine_get_note` returns the duration supplied to `cpp_engine_add_note`,
non-positive or not. -/
theorem C6_clamping_affects_spacing_only (e : CppEngine) :
    (relayout { e with notes := clampDurations e.notes }).notes.map
        (fun n => (n.x, n.y)) =
      (relayout e).notes.map (fun n => (n.x, n.y)) ∧
    (∀ i, (cpp_engine_get_note (some (relayout e)) i).duration_beats =
      (cpp_engine_get_note (some e) i).duration_beats) ∧
    (∀ midi d, (cpp_engine_get_note (cpp_engine_add_note (some e) midi d)
      e.notes.length).duration_beats = d) := by
  refine ⟨?_, ?_, ?_⟩
  · apply List.ext_getElem?
    intro i
    rw [List.getElem?_map, List.getElem?_map, relayout_getElem?, relayout_getElem?]
    have hx := specX_clampDurations e.notes e.staff_width i
    simp only [clampDurations] at hx
    simp only [clampDurations, List.getElem?_map, hx]
    cases e.notes[i]? with
    | none => rfl
    | some n =>
      by_cases h : n.duration_beats ≤ 0 <;> simp [h]
  · intro i
    simp only [cpp_engine_get_note, relayout_getElem?]
    cases e.notes[i]? <;> rfl
  · intro midi d
    have h := get_note_relayout
      { e with notes := e.notes ++
          [{ midi := midi, duration_beats := d, x := 0, y := 0 }] }
      e.notes.length _ (get_note_append_new e _)
    simp only [cpp_engine_add_note, h]

/-- C7: after any sequence of `cpp_engine_add_note`, `cpp_engine_clear` and
`cpp_engine_set_staff_geometry` calls starting from `cpp_engine_new`, the
engine exists and is a fixed point of `relayout`; recomputing from the bare
(pitch, durationBeats) pairs and the current geometry gives exactly the stored
notes. -/
theorem C7_positions_never_stale (ops : List Op) :
    ∃ e, runOps ops = some e ∧ relayout e = e ∧
      relayout { e with notes := erasePositions e.notes } = e := by
  obtain ⟨r, hr, hfix⟩ := runOps_invariant ops {} (by simp [relayout])
  refine ⟨r, hr, hfix, ?_⟩
  rw [relayout_erasePositions, hfix]

/-- C8: `cpp_engine_get_note` returns the sentinel `{0, 0.0, 0.0, 0.0}` exactly
when the engine is null, or the index is at least the note count, or the note
stored at that index is itself all-zero; and for every index below the note
count it returns the note stored at that position. -/
theorem C8_get_note_sentinel_iff (engine : Option CppEngine) (index : Nat) :
    (cpp_engine_get_note engine index = sentinelNote ↔
      engine = none ∨ cpp_engine_note_count engine ≤ index ∨
        ∃ e, engine = some e ∧ e.notes[index]? = some sentinelNote) ∧
    (∀ e, engine = some e → index < cpp_engine_note_count engine →
      e.notes[index]? = some (cpp_engine_get_note engine index)) := by
  cases engine with
  | none => simp [cpp_engine_get_note]
  | some e =>
    cases hn : e.notes[index]? with
    | none =>
      have hlen : e.notes.length ≤ index := List.getElem?_eq_none_iff.mp hn
      constructor
      · simp [cpp_engine_get_note, cpp_engine_note_count, hn, hlen]
      · intro f hf hlt
        simp only [cpp_engine_note_count] at hlt
        omega
    | some n =>
      have hlen : index < e.notes.length := by
        by_contra hc
        rw [List.getElem?_eq_none_iff.mpr (not_lt.mp hc)] at hn
        cases hn
      constructor
      · simp only [cpp_engine_get_note, cpp_engine_note_count, hn]
        constructor
        · intro h
          exact Or.inr (Or.inr ⟨e, rfl, by rw [hn, h]⟩)
        · rintro (h | h | ⟨f, hf, hs⟩)
          · cases h
          · omega
          · cases hf
            rw [hn] at hs
            exact Option.some.inj hs
      · intro f hf _
        cases hf
        simp [cpp_engine_get_note, hn]

/-- C8, scenario: with staff 0 by 0, after adding (5, 0.25) and (0, 0.0) the
note stored at index 1 is all-zero, so `cpp_engine_get_note` returns the
sentinel at an index below the note count. -/
theorem C8_get_note_sentinel_iff_witness :
    cpp_engine_note_count allZeroEngine = 2 ∧
      cpp_engine_get_note allZeroEngine 1 = sentinelNote ∧
      cpp_engine_get_note allZeroEngine 0 =
        { midi := 5, duration_beats := 1 / 4, x := 12, y := 0 } := by
  refine ⟨by rw [allZeroEngine_eq]; rfl, ?_, ?_⟩
  · exact (C8_get_note_sentinel_iff allZeroEngine 1).1.mpr
      (Or.inr (Or.inr ⟨_, allZeroEngine_eq, rfl⟩))
  · have h := (C8_get_note_sentinel_iff allZeroEngine 0).2 _ allZeroEngine_eq
      (by rw [allZeroEngine_eq]; decide)
    exact (Option.some.inj h).symm

/-- C9: for every non-null engine with `k` notes and every pitch `p` and
duration `d`, `cpp_engine_add_note` yields note count `k + 1`, the note at
index `k` has pitch `p` and duration `d`, every note at an index below `k`
keeps its pitch and duration, and the staff geometry is unchanged. -/
theorem C9_add_note_appends (e : CppEngine) (p : Int) (d : ℚ) :
    cpp_engine_note_count (cpp_engine_add_note (some e) p d) =
      cpp_engine_note_count (some e) + 1 ∧
    (cpp_engine_get_note (cpp_engine_add_note (some e) p d) e.notes.length).midi = p ∧
    (cpp_engine_get_note (cpp_engine_add_note (some e) p d)
      e.notes.length).duration_beats = d ∧
    (∀ i, i < e.notes.length →
      (cpp_engine_get_note (cpp_engine_add_note (some e) p d) i).midi =
        (cpp_engine_get_note (some e) i).midi ∧
      (cpp_engine_get_note (cpp_engine_add_note (some e) p d) i).duration_beats =
        (cpp_engine_get_note (some e) i).duration_beats) ∧
    (∃ r, cpp_engine_add_note (some e) p d = some r ∧
      r.staff_width = e.staff_width ∧ r.staff_height = e.staff_height) := by
  have hnew := get_note_relayout
    { e with notes := e.notes ++ [{ midi := p, duration_beats := d, x := 0, y := 0 }] }
    e.notes.length _ (get_note_append_new e _)
  refine ⟨?_, ?_, ?_, ?_, ?_⟩
  · simp [cpp_engine_add_note, cpp_engine_note_count, relayout_length]
  · simp only [cpp_engine_add_note, hnew]
  · simp only [cpp_engine_add_note, hnew]
  · intro i hi
    have hold : e.notes[i]? = some (e.notes[i]) := List.getElem?_eq_getElem hi
    have happ : (e.notes ++ [{ midi := p, duration_beats := d, x := 0, y := 0 }])[i]? =
        some (e.notes[i]) := by
      rw [List.getElem?_append_left hi, hold]
    have hget := get_note_relayout
      { e with notes := e.notes ++ [{ midi := p, duration_beats := d, x := 0, y := 0 }] }
      i _ happ
    simp only [cpp_engine_add_note, hget]
    simp [cpp_engine_get_note, hold]
  · exact ⟨_, rfl, relayout_staff _⟩

/-- C9, scenario: adding (67, 1.0) to the engine holding the laid-out note
(64, 1.0) gives two notes, the old one first. -/
theorem C9_add_note_appends_witness :
    cpp_engine_note_count (cpp_engine_add_note (cpp_engine_add_note cpp_engine_new 64 1)
      67 1) = 2 ∧
    (cpp_engine_get_note (cpp_engine_add_note (cpp_engine_add_note cpp_engine_new 64 1)
      67 1) 0).midi = 64 ∧
    (cpp_engine_get_note (cpp_engine_add_note (cpp_engine_add_note cpp_engine_new 64 1)
      67 1) 1).midi = 67 := by
  have h1 : cpp_engine_add_note cpp_engine_new 64 1 = some
      { notes := [{ midi := 64, duration_beats := 1, x := 12, y := 20 }] } := by
    simp [cpp_engine_add_note, cpp_engine_new, relayout, layoutLoop, totalBeats,
      sumLoop, beatsOf, wrapInt32]
    norm_num
  rw [h1]
  obtain ⟨hc, hm, _, hold, _⟩ := C9_add_note_appends
    { notes := [{ midi := 64, duration_beats := 1, x := 12, y := 20 }] } 67 1
  exact ⟨hc, (hold 0 (by decide)).1, hm⟩

/-- C10: in binary32, for every non-null engine and every width `w` and height
`h` (zero, negative, infinite and NaN included), `cpp_engine_set_staff_geometry`
sets the staff to `w` by `h`, leaves the note count and every pitch and
duration unchanged, and gives every note the `x` and `y` of the layout formulas
evaluated at `w` and `h`: neither depends on the geometry or the positions the
engine held before. For a pitch of at least `-2^31 + 64` the `y` formula is the
one over the mathematical integer `pitch - 64`. -/
theorem C10_set_staff_geometry_uses_new_geometry (e : Binary32.CppEngine) (w h : F32) :
    ∃ r, Binary32.cpp_engine_set_staff_geometry (some e) w h = some r ∧
      r.staff_width = w ∧ r.staff_height = h ∧
      Binary32.cpp_engine_note_count (some r) =
        Binary32.cpp_engine_note_count (some e) ∧
      (∀ i, (Binary32.cpp_engine_get_note (some r) i).midi =
          (Binary32.cpp_engine_get_note (some e) i).midi ∧
        (Binary32.cpp_engine_get_note (some r) i).duration_beats =
          (Binary32.cpp_engine_get_note (some e) i).duration_beats) ∧
      (∀ i n, e.notes[i]? = some n →
        (Binary32.cpp_engine_get_note (some r) i).x = Binary32.layoutX e.notes w i ∧
        (Binary32.cpp_engine_get_note (some r) i).y = Binary32.layoutY h n.midi ∧
        (offsetFits n.midi →
          (Binary32.cpp_engine_get_note (some r) i).y = Binary32.formulaY h n.midi)) := by
  refine ⟨_, rfl, (b32_relayout_staff _).1, (b32_relayout_staff _).2, ?_, ?_, ?_⟩
  · simp [Binary32.cpp_engine_note_count, b32_relayout_length]
  · intro i
    simp only [Binary32.cpp_engine_get_note, b32_relayout_getElem?]
    cases e.notes[i]? <;> exact ⟨rfl, rfl⟩
  · intro i n hn
    have hget := b32_get_note_relayout
      { e with staff_width := w, staff_height := h } i n hn
    rw [hget]
    exact ⟨rfl, rfl, fun hfit => b32_layoutY_eq_formulaY h n.midi hfit⟩

/-- C10, scenario: the two-note engine (64, 1.0), (67, 1.0) after
`cpp_engine_set_staff_geometry` to 1000 by 80 has `x = 12` and `500`,
`y = 40` and `25`. -/
theorem C10_set_staff_geometry_uses_new_geometry_witness :
    Binary32.twoNoteEngine = some Binary32.twoNoteLaidOut ∧
      (Binary32.cpp_engine_get_note (Binary32.cpp_engine_set_staff_geometry
        (some Binary32.twoNoteLaidOut) (F32.ofInt 1000) (F32.ofInt 80)) 0).x =
          F32.ofInt 12 ∧
      (Binary32.cpp_engine_get_note (Binary32.cpp_engine_set_staff_geometry
        (some Binary32.twoNoteLaidOut) (F32.ofInt 1000) (F32.ofInt 80)) 1).x =
          F32.ofInt 500 ∧
      (Binary32.cpp_engine_get_note (Binary32.cpp_engine_set_staff_geometry
        (some Binary32.twoNoteLaidOut) (F32.ofInt 1000) (F32.ofInt 80)) 0).y =
          F32.ofInt 40 ∧
      (Binary32.cpp_engine_get_note (Binary32.cpp_engine_set_staff_geometry
        (some Binary32.twoNoteLaidOut) (F32.ofInt 1000) (F32.ofInt 80)) 1).y =
          F32.ofInt 25 := by
  obtain ⟨r, hr, _, _, _, _, hxy⟩ :=
    C10_set_staff_geometry_uses_new_geometry Binary32.twoNoteLaidOut
      (F32.ofInt 1000) (F32.ofInt 80)
  rw [hr]
  have h0 := hxy 0 _ (by rfl : Binary32.twoNoteLaidOut.notes[0]? = some
    { midi := 64, duration_beats := F32.ofInt 1, x := F32.ofInt 12, y := F32.ofInt 20 })
  have h1 := hxy 1 _ (by rfl : Binary32.twoNoteLaidOut.notes[1]? = some
    { midi := 67, duration_beats := F32.ofInt 1, x := F32.ofInt 380,
      y := F32.div (F32.ofInt 25) (F32.ofInt 2) })
  refine ⟨by decide, ?_, ?_, ?_, ?_⟩
  · rw [h0.1]; decide
  · rw [h1.1]; decide
  · rw [h0.2.1]; decide
  · rw [h1.2.1]; decide

/-- C11: for every non-null engine, `cpp_engine_clear` leaves note count 0 and
the sentinel at every index, keeps the staff geometry, and notes added
afterwards are laid out on the staff that was in force before the clear. -/
theorem C11_clear_keeps_geometry (e : CppEngine) :
    cpp_engine_note_count (cpp_engine_clear (some e)) = 0 ∧
    (∀ i, cpp_engine_get_note (cpp_engine_clear (some e)) i = sentinelNote) ∧
    (∃ r, cpp_engine_clear (some e) = some r ∧
      r.staff_width = e.staff_width ∧ r.staff_height = e.staff_height) ∧
    (∀ p ps, addNotes (cpp_engine_clear (some e)) (p :: ps) =
      some (relayout { notes := (p :: ps).map mkNote,
                       staff_width := e.staff_width,
                       staff_height := e.staff_height })) ∧
    (∀ p ps i n, ((p :: ps).map mkNote)[i]? = some n →
      (cpp_engine_get_note (addNotes (cpp_engine_clear (some e)) (p :: ps)) i).x =
        12 + (specRunning ((p :: ps).map mkNote) i / specTotal ((p :: ps).map mkNote)) *
          (e.staff_width - 24) ∧
      (cpp_engine_get_note (addNotes (cpp_engine_clear (some e)) (p :: ps)) i).y =
        codeY e.staff_height n.midi) := by
  have hadd : ∀ p ps, addNotes (cpp_engine_clear (some e)) (p :: ps) =
      some (relayout { notes := (p :: ps).map mkNote,
                       staff_width := e.staff_width,
                       staff_height := e.staff_height }) := by
    intro p ps
    have h := addNotes_cons { e with notes := [] } p ps
    simpa [cpp_engine_clear] using h
  refine ⟨rfl, ?_, ⟨_, rfl, rfl, rfl⟩, hadd, ?_⟩
  · intro i
    simp [cpp_engine_clear, cpp_engine_get_note]
  · intro p ps i n hn
    rw [hadd, get_note_relayout _ i n hn]
    exact ⟨rfl, rfl⟩

/-- C11, scenario: an engine resized to 1000 by 80, cleared, then given the
note (67, 1.0) places it at `y = 25`, the value for height 80, not at the
`y = 12.5` of the default staff. -/
theorem C11_clear_keeps_geometry_witness :
    (cpp_engine_get_note (addNotes (cpp_engine_clear (some
      { notes := [{ midi := 64, duration_beats := 1, x := 12, y := 40 }],
        staff_width := 1000, staff_height := 80 })) [(67, 1)]) 0).x = 12 ∧
    (cpp_engine_get_note (addNotes (cpp_engine_clear (some
      { notes := [{ midi := 64, duration_beats := 1, x := 12, y := 40 }],
        staff_width := 1000, staff_height := 80 })) [(67, 1)]) 0).y = 25 := by
  obtain ⟨_, _, _, _, hxy⟩ := C11_clear_keeps_geometry
    { notes := [{ midi := 64, duration_beats := 1, x := 12, y := 40 }],
      staff_width := 1000, staff_height := 80 }
  have h := hxy (67, 1) [] 0 (mkNote (67, 1)) rfl
  constructor
  · rw [h.1]
    norm_num [specRunning]
  · rw [h.2]
    norm_num [codeY, wrapInt32, mkNote]

/-- C12: for every non-empty note sequence, whatever the durations, the sum of
the first loop of `relayout` is strictly positive: the guard
`total_beats <= 0` is false, `total_beats` keeps the value of the sum, and the
divisor of `running / total_beats` is not zero. -/
theorem C12_total_beats_positive (notes : List CppNote) (hne : notes ≠ []) :
    0 < sumLoop 0 notes ∧ ¬ sumLoop 0 notes ≤ 0 ∧
      totalBeats notes = sumLoop 0 notes ∧ totalBeats notes ≠ 0 ∧
      sumLoop 0 notes = specTotal notes := by
  have hpos := specTotal_pos notes hne
  have hsum : sumLoop 0 notes = specTotal notes := by rw [sumLoop_eq, zero_add]
  have htot := totalBeats_eq notes hne
  refine ⟨by rw [hsum]; exact hpos, by rw [hsum]; exact not_le.mpr hpos,
    by rw [htot, hsum], by rw [htot]; exact ne_of_gt hpos, hsum⟩

/-- C12, scenario: two notes of durations 0 and -3 sum to 0.5, not to a
non-positive value. -/
theorem C12_total_beats_positive_witness :
    sumLoop 0 [{ midi := 60, duration_beats := 0, x := 0, y := 0 },
               { midi := 62, duration_beats := -3, x := 0, y := 0 }] = 1 / 2 ∧
      0 < sumLoop 0 [{ midi := 60, duration_beats := 0, x := 0, y := 0 },
                     { midi := 62, duration_beats := -3, x := 0, y := 0 }] :=
  ⟨by norm_num [sumLoop, beatsOf],
    (C12_total_beats_positive _ (by simp)).1⟩

/-- C13, counterexample: in binary32, on the default staff the notes of
durations `1`, `2^100`, `1` sit at `x = 12`, `12`, `748`: the first two
coincide, and the last one is at `staffWidth - 12`, not strictly below it. -/
theorem C13_x_order_fails_in_binary32 :
    F32.isValid (F32.ofInt (2 ^ 100)) = true ∧
    (Binary32.cpp_engine_get_note Binary32.absorbingEngine 0).x = F32.ofInt 12 ∧
    (Binary32.cpp_engine_get_note Binary32.absorbingEngine 1).x = F32.ofInt 12 ∧
    (Binary32.cpp_engine_get_note Binary32.absorbingEngine 2).x = F32.ofInt 748 ∧
    F32.lt (Binary32.cpp_engine_get_note Binary32.absorbingEngine 0).x
      (Binary32.cpp_engine_get_note Binary32.absorbingEngine 1).x = false ∧
    F32.sub (F32.ofInt 760) (F32.ofInt 12) = F32.ofInt 748 ∧
    F32.lt (Binary32.cpp_engine_get_note Binary32.absorbingEngine 2).x
      (F32.sub (F32.ofInt 760) (F32.ofInt 12)) = false := by
  decide

/-- C13 (amended): with arithmetic read as exact (rational values, no
rounding, no overflow), after `relayout`, whatever the durations: on a staff
wider than 24 `x` is strictly increasing with the index and every `x`, the last
one included, is strictly below `staffWidth - 12`; on a staff of width exactly
24 every `x` is 12; on a staff narrower than 24 `x` is strictly decreasing with
the index. -/
theorem C13_relayout_x_order (e : CppEngine) :
    (24 < e.staff_width →
      (∀ i j, i < j → j < e.notes.length →
        (cpp_engine_get_note (some (relayout e)) i).x <
          (cpp_engine_get_note (some (relayout e)) j).x) ∧
      (∀ i, i < e.notes.length →
        (cpp_engine_get_note (some (relayout e)) i).x < e.staff_width - 12)) ∧
    (e.staff_width = 24 →
      ∀ i, i < e.notes.length →
        (cpp_engine_get_note (some (relayout e)) i).x = 12) ∧
    (e.staff_width < 24 →
      ∀ i j, i < j → j < e.notes.length →
        (cpp_engine_get_note (some (relayout e)) j).x <
          (cpp_engine_get_note (some (relayout e)) i).x) := by
  have hquot : ∀ i j, i < j → j < e.notes.length →
      specRunning e.notes i / specTotal e.notes <
        specRunning e.notes j / specTotal e.notes := by
    intro i j hij hj
    have hne : e.notes ≠ [] := by
      intro h0
      rw [h0] at hj
      exact absurd hj (by simp)
    exact div_lt_div_of_pos_right
      (specRunning_strictMono e.notes i j hij (by omega)) (specTotal_pos e.notes hne)
  refine ⟨fun hw => ⟨fun i j hij hj => ?_, fun i hi => ?_⟩, fun hw i hi => ?_,
    fun hw i j hij hj => ?_⟩
  · rw [get_note_x_relayout e i (by omega), get_note_x_relayout e j hj]
    have hpos : 0 < e.staff_width - 24 := by linarith
    nlinarith [mul_pos (sub_pos.mpr (hquot i j hij hj)) hpos]
  · rw [get_note_x_relayout e i hi]
    have hne : e.notes ≠ [] := by
      intro h0
      rw [h0] at hi
      exact absurd hi (by simp)
    have hq1 : specRunning e.notes i / specTotal e.notes < 1 :=
      (div_lt_one (specTotal_pos e.notes hne)).mpr (specRunning_lt_total e.notes i hi)
    have hpos : 0 < e.staff_width - 24 := by linarith
    nlinarith [mul_pos (sub_pos.mpr hq1) hpos]
  · rw [get_note_x_relayout e i hi, hw]
    ring
  · rw [get_note_x_relayout e i (by omega), get_note_x_relayout e j hj]
    have hneg : 0 < 24 - e.staff_width := by linarith
    nlinarith [mul_pos (sub_pos.mpr (hquot i j hij hj)) hneg]

/-- C13, scenario: two notes of durations 0 and -1 on the default staff sit at
`x = 12` and `x = 380`, in sequence order. -/
theorem C13_relayout_x_order_witness :
    (cpp_engine_get_note (some (relayout
      { notes := [{ midi := 60, duration_beats := 0, x := 0, y := 0 },
                  { midi := 60, duration_beats := -1, x := 0, y := 0 }] })) 0).x <
    (cpp_engine_get_note (some (relayout
      { notes := [{ midi := 60, duration_beats := 0, x := 0, y := 0 },
                  { midi := 60, duration_beats := -1, x := 0, y := 0 }] })) 1).x :=
  ((C13_relayout_x_order
    { notes := [{ midi := 60, duration_beats := 0, x := 0, y := 0 },
                { midi := 60, duration_beats := -1, x := 0, y := 0 }] }).1
    (by norm_num)).1 0 1 (by decide) (by decide)

/-- C15: for every list of (pitch, duration) pairs and every geometry, setting
the geometry on a fresh engine and then adding the notes gives the same engine
state as adding the notes first and setting the geometry afterwards; and
two successive `cpp_engine_set_staff_geometry` calls on any engine give the
same state as the last one alone. -/
theorem C15_history_independent (ps : List (Int × ℚ)) (w h : ℚ) :
    addNotes (cpp_engine_set_staff_geometry cpp_engine_new w h) ps =
      cpp_engine_set_staff_geometry (addNotes cpp_engine_new ps) w h ∧
    (∀ (engine : Option CppEngine) (w1 h1 : ℚ),
      cpp_engine_set_staff_geometry
          (cpp_engine_set_staff_geometry engine w1 h1) w h =
        cpp_engine_set_staff_geometry engine w h) := by
  constructor
  · cases ps with
    | nil => rfl
    | cons p qs =>
      have hfresh : cpp_engine_set_staff_geometry cpp_engine_new w h =
          some { notes := [], staff_width := w, staff_height := h } := by
        simp [cpp_engine_set_staff_geometry, cpp_engine_new, relayout]
      have hnew : cpp_engine_new = some {} := rfl
      rw [hfresh, addNotes_cons, hnew, addNotes_cons]
      simp only [cpp_engine_set_staff_geometry]
      congr 1
      apply relayout_eq_of_keys
      · rfl
      · rfl
      · exact (relayout_keys
          { notes := [] ++ List.map mkNote (p :: qs),
            staff_width := 760, staff_height := 40 }).symm
  · intro engine w1 h1
    cases engine with
    | none => rfl
    | some e =>
      simp only [cpp_engine_set_staff_geometry]
      congr 1
      apply relayout_eq_of_keys
      · rfl
      · rfl
      · exact relayout_keys _

/-- C16: when every duration is strictly positive and `k > 0`, multiplying
every duration by `k` leaves every note's `x` and `y` unchanged; for the
sequence of durations 1 and 0 and `k = 2` the second note moves, from
`x = 3004/5` to `x = 5996/9`. -/
theorem C16_duration_scale_invariance (e : CppEngine) (k : ℚ) (hk : 0 < k)
    (hpos : ∀ n ∈ e.notes, 0 < n.duration_beats) :
    (relayout { e with notes := scaleDurations k e.notes }).notes.map
        (fun n => (n.x, n.y)) =
      (relayout e).notes.map (fun n => (n.x, n.y)) ∧
    ((cpp_engine_get_note (some (relayout zeroDurationPending)) 1).x = 3004 / 5 ∧
      (cpp_engine_get_note (some (relayout
        { zeroDurationPending with
          notes := scaleDurations 2 zeroDurationPending.notes })) 1).x = 5996 / 9 ∧
      (relayout { zeroDurationPending with
          notes := scaleDurations 2 zeroDurationPending.notes }).notes.map
          (fun n => (n.x, n.y)) ≠
        (relayout zeroDurationPending).notes.map (fun n => (n.x, n.y))) := by
  constructor
  · apply List.ext_getElem?
    intro i
    rw [List.getElem?_map, List.getElem?_map, relayout_getElem?, relayout_getElem?]
    have hx := specX_scale k hk e.notes hpos e.staff_width i
    simp only [scaleDurations] at hx
    simp only [scaleDurations, List.getElem?_map, hx]
    cases e.notes[i]? <;> rfl
  · refine ⟨?_, ?_, ?_⟩
    · rw [get_note_x_relayout _ 1 (by decide)]
      norm_num [zeroDurationPending, specRunning, specTotal, effectiveDuration]
    · rw [get_note_x_relayout _ 1 (by decide)]
      norm_num [zeroDurationPending, scaleDurations, specRunning, specTotal,
        effectiveDuration]
    · intro hEq
      have h1 := congrArg (fun l => l[1]?) hEq
      simp only [List.getElem?_map, relayout_getElem?] at h1
      norm_num [zeroDurationPending, scaleDurations, specX, specRunning, specTotal,
        effectiveDuration] at h1

/-- C16, scenario: doubling the durations 1 and 3 leaves both notes where
they were. -/
theorem C16_duration_scale_invariance_witness :
    (relayout { positivePairPending with
        notes := scaleDurations 2 positivePairPending.notes }).notes.map
        (fun n => (n.x, n.y)) =
      (relayout positivePairPending).notes.map (fun n => (n.x, n.y)) :=
  (C16_duration_scale_invariance positivePairPending 2 (by norm_num)
    (by simp [positivePairPending])).1

/-- C17, counterexample: in binary32, on a staff of height 0 the note whose
pitch is the least `int32_t` value, below `-2^31 + 64`, has `y = 0`, which is
the value of the linear mapping there. -/
theorem C17_flat_staff_still_follows_formula :
    isInt32 (-2147483648) ∧ (-2147483648 : Int) < -(2 ^ 31) + 64 ∧
      (Binary32.cpp_engine_get_note Binary32.flatMinPitchEngine 0).midi = -2147483648 ∧
      (Binary32.cpp_engine_get_note Binary32.flatMinPitchEngine 0).y = F32.zero ∧
      Binary32.formulaY (F32.ofInt 0) (-2147483648) = F32.zero ∧
      F32.same (Binary32.cpp_engine_get_note Binary32.flatMinPitchEngine 0).y
        (Binary32.formulaY (F32.ofInt 0) (-2147483648)) = true := by
  decide

/-- C17 (amended): in binary32, `pitch - 64` being computed as an `int32_t`.
For every `int32_t` pitch at least `-2^31 + 64` the difference stays in range
and, after `relayout`, `y` is the formula over the mathematical `pitch - 64`.
For every `int32_t` pitch below that bound the mathematical difference is
outside the `int32_t` range, the wrapped difference is at least `2^31 - 64`, and
`y` is a different number from the value of the formula whenever the staff
height is not NaN and `staffHeight / 16` is not zero. -/
theorem C17_int32_pitch_offset (e : Binary32.CppEngine) (i : Nat)
    (n : Binary32.CppNote) (hn : e.notes[i]? = some n) (hp : isInt32 n.midi) :
    (-(2 ^ 31) + 64 ≤ n.midi →
      isInt32 (n.midi - 64) ∧
      (Binary32.cpp_engine_get_note (some (Binary32.relayout e)) i).y =
        Binary32.formulaY e.staff_height n.midi) ∧
    (n.midi < -(2 ^ 31) + 64 →
      ¬ isInt32 (n.midi - 64) ∧
      2 ^ 31 - 64 ≤ wrapInt32 (n.midi - 64) ∧
      (e.staff_height.isValid = true → e.staff_height ≠ F32.nan →
        (∀ b, F32.div e.staff_height (F32.ofInt 16) ≠ F32.fin b 0) →
        F32.same (Binary32.cpp_engine_get_note (some (Binary32.relayout e)) i).y
          (Binary32.formulaY e.staff_height n.midi) = false)) := by
  obtain ⟨hlo, hhi⟩ := hp
  have hy : (Binary32.cpp_engine_get_note (some (Binary32.relayout e)) i).y =
      Binary32.layoutY e.staff_height n.midi := by
    rw [b32_get_note_relayout e i n hn]
  constructor
  · intro hge
    exact ⟨⟨by linarith, by linarith⟩,
      by rw [hy]; exact b32_layoutY_eq_formulaY _ _ ⟨hge, hhi⟩⟩
  · intro hlt
    have hwrap : wrapInt32 (n.midi - 64) = n.midi - 64 + 2 ^ 32 := by
      unfold wrapInt32
      have hmod : (n.midi - 64 + 2 ^ 31) % 2 ^ 32 = n.midi - 64 + 2 ^ 31 + 2 ^ 32 := by
        rw [← Int.add_mul_emod_self_left (n.midi - 64 + 2 ^ 31) (2 ^ 32) 1]
        rw [mul_one]
        exact Int.emod_eq_of_lt (by linarith) (by linarith)
      rw [hmod]
      ring
    refine ⟨fun hfit => ?_, by rw [hwrap]; linarith, fun hv hnan hc => ?_⟩
    · obtain ⟨h1, _⟩ := hfit
      linarith
    · rw [hy]
      exact b32_layoutY_deviates e.staff_height n.midi hlo hlt hv hnan hc

/-- C17, scenario: on the default staff of height 40 the least `int32_t` pitch
gets a `y` that is not the value of the formula, while pitch 67 gets the value
of the formula. -/
theorem C17_int32_pitch_offset_witness :
    F32.same
      (Binary32.cpp_engine_get_note (some (Binary32.relayout
        { notes := [{ midi := -2147483648, duration_beats := F32.ofInt 1,
                      x := F32.zero, y := F32.zero }] })) 0).y
      (Binary32.formulaY (F32.ofInt 40) (-2147483648)) = false ∧
    (Binary32.cpp_engine_get_note (some (Binary32.relayout Binary32.twoNoteLaidOut)) 1).y =
      Binary32.formulaY (F32.ofInt 40) 67 :=
  ⟨((C17_int32_pitch_offset
      { notes := [{ midi := -2147483648, duration_beats := F32.ofInt 1,
                    x := F32.zero, y := F32.zero }] } 0
      { midi := -2147483648, duration_beats := F32.ofInt 1, x := F32.zero, y := F32.zero }
      rfl (by decide)).2 (by decide)).2.2 (by decide) (by decide) (by decide),
    ((C17_int32_pitch_offset Binary32.twoNoteLaidOut 1
      { midi := 67, duration_beats := F32.ofInt 1, x := F32.ofInt 380,
        y := F32.div (F32.ofInt 25) (F32.ofInt 2) } rfl
      (by decide)).1 (by decide)).2⟩

end Notarium
